import Mathlib

/-!
Verification of the pdftoaudiobook pipeline (sources: `pdfaudio.py`, `audiophyton.py`).

The source programs are shallowly embedded: page texts, chapter titles and file
names are `List Char` (Python strings, compared code point by code point);
filesystem and external-tool effects (espeak, pydub, ffmpeg, pygame) are passed
in explicitly as oracles (per-item success flags, per-file measured durations);
`sys.exit(1)` paths become `Except` errors.  All definitions are executable.
-/

namespace PdfAudio

/-- `leadsList n h`: `n` is an initial run of `h` (Python `h.startswith(n)`). -/
def leadsList : List Char → List Char → Bool
  | [], _ => true
  | _ :: _, [] => false
  | c :: cs, d :: ds => decide (c = d) && leadsList cs ds

/-- Python `needle in haystack` on strings: contiguous-substring test on the
underlying character lists. -/
def isSubstr (needle : List Char) : List Char → Bool
  | [] => needle.isEmpty
  | d :: ds => leadsList needle (d :: ds) || isSubstr needle ds

/-- Python string comparison `a < b`: strict lexicographic order on code
points, as used by `sorted()` on file names. -/
def lexLt : List Char → List Char → Bool
  | [], [] => false
  | [], _ :: _ => true
  | _ :: _, [] => false
  | a :: as, b :: bs => if a < b then true else if b < a then false else lexLt as bs

/-- Non-strict counterpart of `lexLt`; `sorted()` produces a list that is
non-decreasing under this order. -/
def lexLe (a b : List Char) : Bool :=
  !(lexLt b a)

/-- Concatenation of the text of pages `a, a+1, ..., b-1` of a document given
as a page-indexed list of texts (Python
`for page_num in range(a, b): text += pdf.load_page(page_num).get_text()`). -/
def pageRangeText (pages : List (List Char)) (a b : Nat) : List Char :=
  ((List.range' a (b - a)).map (fun p => pages.getD p [])).flatten

/-- Text of one page, `pdf.load_page(p).get_text()`. -/
def pageText (pages : List (List Char)) (p : Nat) : List Char :=
  pages.getD p []

/-- `chapter in chapter_pages` for the insertion-ordered dict, modelled as an
association list. -/
def hasKey (c : List Char) : List (List Char × Nat) → Bool
  | [] => false
  | e :: r => decide (e.1 = c) || hasKey c r

/-- `chapter_pages[chapter]` — lookup in the association list. -/
def lookupPage (c : List Char) : List (List Char × Nat) → Option Nat
  | [] => none
  | e :: r => if e.1 = c then some e.2 else lookupPage c r

/-- Inner loop of the body scan in `extract_chapter_texts` (lines 125–128):
`for chapter in chapters: if chapter in text and chapter not in chapter_pages:
chapter_pages[chapter] = page_num`.  A Python dict insertion appends the new
key at the end of the iteration order. -/
def addChapters (text : List Char) (pageNum : Nat) :
    List (List Char) → List (List Char × Nat) → List (List Char × Nat)
  | [], acc => acc
  | c :: cs, acc =>
    if isSubstr c text && !hasKey c acc then
      addChapters text pageNum cs (acc ++ [(c, pageNum)])
    else
      addChapters text pageNum cs acc

/-- The page indices scanned by the body scan:
`range(content_start_page - 1, total_pages)`. -/
def scanRange (content_start_page total : Nat) : List Nat :=
  List.range' (content_start_page - 1) (total - (content_start_page - 1))

/-- The `chapter_pages` dict after the full body scan of
`extract_chapter_texts` (lines 122–128), as an insertion-ordered association
list from chapter title to the page on which it was first found. -/
def chapter_pages (pages chapters : List (List Char)) (content_start_page : Nat) :
    List (List Char × Nat) :=
  (scanRange content_start_page pages.length).foldl
    (fun acc p => addChapters (pageText pages p) p chapters acc) []

/-- Specification-side view for comparison: the first page index in the
scanned range whose text has `c` as a literal substring. -/
def firstMatchPage (pages : List (List Char)) (content_start_page : Nat) (c : List Char) :
    Option Nat :=
  (scanRange content_start_page pages.length).find? (fun p => isSubstr c (pageText pages p))

/-- The body-scan fold over an arbitrary page window `[a, a + n)` starting
from an arbitrary dict `acc`; `chapter_pages` is this fold over the full scan
range starting from the empty dict. -/
def scanFoldAux (pages chapters : List (List Char)) (a n : Nat)
    (acc : List (List Char × Nat)) : List (List Char × Nat) :=
  (List.range' a n).foldl (fun acc p => addChapters (pageText pages p) p chapters acc) acc

/-- One step of a stable insertion sort on `(title, page)` pairs keyed by
page. -/
def insPage (e : List Char × Nat) : List (List Char × Nat) → List (List Char × Nat)
  | [] => [e]
  | f :: fs => if e.2 ≤ f.2 then e :: f :: fs else f :: insPage e fs

/-- Stable sort by page, modelling
`sorted(chapter_pages.items(), key=lambda x: x[1])` (Python's sort is stable,
so any stable sort by the same key produces the same list). -/
def sortPairs : List (List Char × Nat) → List (List Char × Nat)
  | [] => []
  | e :: l => insPage e (sortPairs l)

/-- `sorted_chapters` of `extract_chapter_texts` (line 131). -/
def sorted_chapters (pages chapters : List (List Char)) (content_start_page : Nat) :
    List (List Char × Nat) :=
  sortPairs (chapter_pages pages chapters content_start_page)

/-- Lines 134–137 of `extract_chapter_texts`: each sorted chapter becomes a
`(title, start_page, end_page_exclusive)` triple, where the exclusive end page
is the next sorted chapter's start page, or `total_pages` for the last one. -/
def mkBounds (total : Nat) : List (List Char × Nat) → List (List Char × Nat × Nat)
  | [] => []
  | [(c, s)] => [(c, s, total)]
  | (c, s) :: (c2, s2) :: rest => (c, s, s2) :: mkBounds total ((c2, s2) :: rest)

/-- The resolved chapter boundaries of `extract_chapter_texts`, with exclusive
end pages (the source iterates `range(start_page, end_page)`; the inclusive
end page of a boundary `b` is `b.2.2 - 1`). -/
def chapter_bounds (pages chapters : List (List Char)) (content_start_page : Nat) :
    List (List Char × Nat × Nat) :=
  mkBounds pages.length (sorted_chapters pages chapters content_start_page)

/-- `extract_chapter_texts` (lines 101–146): the returned list of
`(chapter title, chapter text)` pairs. -/
def extract_chapter_texts (pages chapters : List (List Char)) (content_start_page : Nat) :
    List (List Char × List Char) :=
  (chapter_bounds pages chapters content_start_page).map
    (fun b => (b.1, pageRangeText pages b.2.1 b.2.2))

/-- `safe_title` of `save_chapters` (line 159):
`''.join(c for c in chapter_title if c.isalnum() or c in (' ', '_')).rstrip()`.
`Char.isAlphanum` models `str.isalnum` (they agree on ASCII); after the filter
every character is alphanumeric, a space or an underscore, so `rstrip()` can
only strip spaces. -/
def safe_title (t : List Char) : List Char :=
  ((t.filter fun ch => ch.isAlphanum || decide (ch = ' ') || decide (ch = '_')).reverse.dropWhile
    Char.isWhitespace).reverse

/-- The text artifact name `f"chapter_{idx + 1}_{safe_title}.txt"` of
`save_chapters` (line 160), for the chapter at 0-based position `idx`. -/
def chapterFileName (idx : Nat) (title : List Char) : List Char :=
  "chapter_".data ++ Nat.toDigits 10 (idx + 1) ++ "_".data ++ safe_title title ++ ".txt".data

/-- Loop of `save_chapters` (lines 158–166): each chapter is written to its
own file; a write failure (`writeOk idx = false`) is logged and the loop
continues.  The value is the filesystem effect — the list of files actually
written, in chapter order; the Python function itself returns `None` and
signals nothing, even when every write fails. -/
def saveLoop (writeOk : Nat → Bool) : Nat → List (List Char × List Char) → List (List Char)
  | _, [] => []
  | idx, (title, _) :: rest =>
    if writeOk idx then chapterFileName idx title :: saveLoop writeOk (idx + 1) rest
    else saveLoop writeOk (idx + 1) rest

/-- `save_chapters(extracted_chapters, text_folder)` with a per-chapter write
outcome oracle. -/
def save_chapters (extracted : List (List Char × List Char)) (writeOk : Nat → Bool) :
    List (List Char) :=
  saveLoop writeOk 0 extracted

/-- One step of an insertion sort on file names under `lexLe`. -/
def insName (a : List Char) : List (List Char) → List (List Char)
  | [] => [a]
  | b :: bs => if lexLe a b then a :: b :: bs else b :: insName a bs

/-- `sorted(text_folder.glob("*.txt"))` (line 367): the persisted text files
in lexicographic file-name order.  The glob's directory order is unspecified,
but `sorted()` canonicalises it; the model sorts the written-file list. -/
def sortNames : List (List Char) → List (List Char)
  | [] => []
  | a :: l => insName a (sortNames l)

/-- `Path.stem`: the file name without its final suffix (line 372 uses
`text_file.stem`). -/
def stemOf (n : List Char) : List Char :=
  if n.contains '.' then ((n.reverse.dropWhile fun c => decide (c ≠ '.')).drop 1).reverse
  else n

/-- The planned audio artifact `audio_folder / f"{text_file.stem}.mp3"`
(line 372). -/
def audioFileName (textName : List Char) : List Char :=
  stemOf textName ++ ".mp3".data

/-- The fatal outcomes of the pipeline.  `NoChaptersSaved` appears only in the
specification's description of `save_chapters`; the source never raises it. -/
inductive PipelineError where
  | CriticalError
  | NoAudioProduced
  | NoValidAudioFiles
  | NoChaptersSaved
deriving DecidableEq, Repr

/-- The sequential conversion loop (lines 377–384) together with
`text_to_speech` (lines 170–219).  `synthOk` is the outcome oracle of the
eSpeak/pydub invocation for a given text file.  On success the chapter's mp3
exists and is recorded; on failure `text_to_speech` deletes the unit's partial
audio artifact (lines 216–217) and re-raises (line 219), and the orchestrator
catches the exception outside the loop and calls `sys.exit(1)` (line 384) —
the error value carries the audio files present on disk at that moment. -/
def convertLoop (synthOk : List Char → Bool) :
    List (List Char) → List (List Char) → Except (List (List Char)) (List (List Char))
  | [], produced => .ok produced
  | t :: rest, produced =>
    if synthOk t then convertLoop synthOk rest (produced ++ [audioFileName t])
    else .error produced

/-- A chapter entry of the ffmetadata file written by
`create_chapters_metadata`: `START`, `END` (milliseconds) and `title`. -/
structure MetaEntry where
  startMs : Nat
  endMs : Nat
  title : List Char
deriving DecidableEq, Repr

/-- Loop of `create_chapters_metadata` (lines 241–258): walk the audio files
keeping a running `time_in_ms` (second argument); a file that does not exist
(`fexists f = false`) or cannot be read (`durationMs f = none`) is skipped;
otherwise one chapter entry `START=t`, `END=t + duration`, `title=stem` is
written and the file joins `valid_audio_files`. -/
def metaLoop (fexists : List Char → Bool) (durationMs : List Char → Option Nat) :
    List (List Char) → Nat → List MetaEntry × List (List Char)
  | [], _ => ([], [])
  | f :: rest, t =>
    if fexists f then
      match durationMs f with
      | some d =>
        (⟨t, t + d, stemOf f⟩ :: (metaLoop fexists durationMs rest (t + d)).1,
          f :: (metaLoop fexists durationMs rest (t + d)).2)
      | none => metaLoop fexists durationMs rest t
    else metaLoop fexists durationMs rest t

/-- `create_chapters_metadata(audio_files, output_folder)` (lines 222–266):
returns the written chapter entries and `valid_audio_files`; exits with an
error (`sys.exit(1)`, line 261) when no valid audio file is found. -/
def create_chapters_metadata (audio_files : List (List Char)) (fexists : List Char → Bool)
    (durationMs : List Char → Option Nat) :
    Except PipelineError (List MetaEntry × List (List Char)) :=
  if (metaLoop fexists durationMs audio_files 0).2.isEmpty then .error .NoValidAudioFiles
  else .ok (metaLoop fexists durationMs audio_files 0)

/-- `merge_audio_with_chapters` (lines 269–315) writes `filelist.txt` with one
`file '...'` line per valid audio file, in list order, and has ffmpeg
concatenate exactly that list top to bottom: the concatenation order is the
input order.  The value is the ordered list of concatenated artifacts. -/
def merge_audio_with_chapters (valid_audio_files : List (List Char)) : List (List Char) :=
  valid_audio_files

/-- Steps 4–5 of `process_pdf_to_audiobook` (lines 367–391): glob and sort the
persisted text files, convert them sequentially (any failure kills the run,
line 384), exit when no audio file was generated (lines 386–388), then build
the chapter metadata over the planned audio files. -/
def audioPhase (persisted : List (List Char)) (synthOk : List Char → Bool)
    (durationMs : List Char → Option Nat) :
    Except PipelineError (List MetaEntry × List (List Char)) :=
  match convertLoop synthOk (sortNames persisted) [] with
  | .error _ => .error .CriticalError
  | .ok produced =>
    if produced.isEmpty then .error .NoAudioProduced
    else create_chapters_metadata ((sortNames persisted).map audioFileName)
      (fun f => produced.contains f) durationMs

/-- Steps 3–5 for the `save_chapters` contract: persist the extracted chapters
(partial failures tolerated silently), then run the audio phase on whatever
was persisted. -/
def saveAndAudio (extracted : List (List Char × List Char)) (writeOk : Nat → Bool)
    (synthOk : List Char → Bool) (durationMs : List Char → Option Nat) :
    Except PipelineError (List MetaEntry × List (List Char)) :=
  audioPhase (save_chapters extracted writeOk) synthOk durationMs

/-- `Except.isOk` as a plain boolean on our result type. -/
def isOkE {ε α : Type} : Except ε α → Bool
  | .ok _ => true
  | .error _ => false

/-- Index of the first occurrence of `c` in a list of titles (the position in
the front-matter candidate scan; meaningful when `c` is a member). -/
def idxOf (c : List Char) : List (List Char) → Nat
  | [] => 0
  | d :: r => if d = c then 0 else idxOf c r + 1

/-- Fixture: a 12-page document whose page 0 mentions `Intro` and whose page
10 mentions `Chapter One`; used to instantiate the scan theorems. -/
def demoPages : List (List Char) :=
  (List.range 12).map fun i =>
    if i = 0 then "xx Intro yy".data
    else if i = 10 then "Chapter One here".data
    else "blah".data

/-- Fixture: the candidate titles of the demo document; `Chapter Two` never
matches any body page. -/
def demoChapters : List (List Char) :=
  ["Intro".data, "Chapter One".data, "Chapter Two".data]

end PdfAudio

namespace AudioPhyton

/-! ### Model of `audiophyton.py` -/

/-- Concatenation of the extracted text of pages `a, a+1, ..., b-1`
(Python `for page in range(a, b): text += reader.pages[page].extract_text()`). -/
def pageRangeText (pages : List (List Char)) (a b : Nat) : List Char :=
  ((List.range' a (b - a)).map (fun p => pages.getD p [])).flatten

/-- The `while start_page < num_pages` loop of `pdf_to_audiobook`: emits
`(chapter number, chapter text)` pairs.  `end_page = min (start_page +
pages_per_chapter) num_pages`; the chapter counter starts at 1 and the page
cursor advances to `end_page`.  The Python loop does not terminate when
`pages_per_chapter = 0`, so that case is guarded off (it returns `[]` here and
is outside every claim, which assumes `pages_per_chapter ≥ 1`). -/
def chunkLoop (pages : List (List Char)) (ppc : Nat) (chapter start_page : Nat) :
    List (Nat × List Char) :=
  if _ : start_page < pages.length ∧ 0 < ppc then
    (chapter, pageRangeText pages start_page (min (start_page + ppc) pages.length)) ::
      chunkLoop pages ppc (chapter + 1) (min (start_page + ppc) pages.length)
  else []
termination_by pages.length - start_page
decreasing_by omega

/-- `pdf_to_audiobook(pdf_path, pages_per_chapter)`: fixed-size page chunking,
chapters numbered from 1, page cursor starting at 0. -/
def pdf_to_audiobook (pages : List (List Char)) (ppc : Nat) : List (Nat × List Char) :=
  chunkLoop pages ppc 1 0

/-- State of the pygame music mixer, an external collaborator of the playback
controller.  `pygame.mixer.music` wraps SDL_mixer, whose `Mix_PlayingMusic`
treats paused music as playing: `get_busy()` is true in both `Playing` and
`Paused`. -/
inductive MixerState where
  | Stopped
  | Playing
  | Paused
deriving DecidableEq, Repr

/-- `pygame.mixer.music.get_busy()`: true unless the stream is idle. -/
def get_busy : MixerState → Bool
  | .Stopped => false
  | _ => true

/-- `pygame.mixer.music.pause()`: pauses an actively playing stream; pausing a
paused or idle stream changes nothing. -/
def mixerPause : MixerState → MixerState
  | .Playing => .Paused
  | m => m

/-- `pygame.mixer.music.unpause()`: resumes a paused stream; unpausing a
playing or idle stream changes nothing. -/
def mixerUnpause : MixerState → MixerState
  | .Paused => .Playing
  | m => m

/-- The process-wide playback state of `audiophyton.py`: the global
`current_chapter`, the mixer, and the append-only `bookmarks.txt` log (one
`List Char` line per appended record). -/
structure PlayerState where
  current_chapter : Nat
  mixer : MixerState
  bookmarks : List (List Char)
deriving DecidableEq, Repr

/-- `pause_audio()`: `if pygame.mixer.music.get_busy(): pygame.mixer.music.pause()`. -/
def pause_audio (st : PlayerState) : PlayerState :=
  if get_busy st.mixer then { st with mixer := mixerPause st.mixer } else st

/-- `resume_audio()`: `if pygame.mixer.music.get_busy(): pygame.mixer.music.unpause()`. -/
def resume_audio (st : PlayerState) : PlayerState :=
  if get_busy st.mixer then { st with mixer := mixerUnpause st.mixer } else st

/-- The line `f"Chapter {current_chapter}\n"` appended to `bookmarks.txt`. -/
def bookmarkLine (chapter : Nat) : List Char :=
  "Chapter ".data ++ Nat.toDigits 10 chapter ++ ['\n']

/-- `add_bookmark()`: opens `bookmarks.txt` in append mode and writes
`f"Chapter {current_chapter}\n"`.  The wall-clock instant `now` at which the
call happens is passed in explicitly so that claims about timestamps can be
stated; the source reads no clock, so `now` is unused. -/
def add_bookmark (now : Nat) (st : PlayerState) : PlayerState :=
  let _ := now
  { st with bookmarks := st.bookmarks ++ [bookmarkLine st.current_chapter] }

end AudioPhyton

/-! ## Theorems -/

namespace PdfAudio

/-- `leadsList` tests exactly for an initial run. -/
theorem leadsList_iff (n h : List Char) :
    leadsList n h = true ↔ ∃ t, h = n ++ t := by
  induction n generalizing h with
  | nil => simp [leadsList]
  | cons c cs ih =>
    cases h with
    | nil => simp [leadsList]
    | cons d ds =>
      simp only [leadsList, Bool.and_eq_true, decide_eq_true_eq, ih, List.cons_append,
        List.cons.injEq]
      constructor
      · rintro ⟨rfl, t, rfl⟩; exact ⟨t, rfl, rfl⟩
      · rintro ⟨t, rfl, rfl⟩; exact ⟨rfl, t, rfl⟩

/-- `isSubstr` tests exactly for containment of a contiguous substring, the
“literal substring” relation of the specification. -/
theorem isSubstr_iff (n h : List Char) :
    isSubstr n h = true ↔ ∃ l1 l2, h = l1 ++ n ++ l2 := by
  induction h with
  | nil =>
    simp only [isSubstr, List.isEmpty_iff]
    constructor
    · rintro rfl; exact ⟨[], [], rfl⟩
    · rintro ⟨l1, l2, hh⟩
      rcases List.append_eq_nil.1 hh.symm with ⟨h1, _⟩
      exact (List.append_eq_nil.1 h1).2
  | cons d ds ih =>
    simp only [isSubstr, Bool.or_eq_true, leadsList_iff, ih]
    constructor
    · rintro (⟨t, ht⟩ | ⟨l1, l2, hh⟩)
      · exact ⟨[], t, by simp [ht]⟩
      · exact ⟨d :: l1, l2, by simp [hh]⟩
    · rintro ⟨l1, l2, hh⟩
      cases l1 with
      | nil => exact .inl ⟨l2, by simpa using hh⟩
      | cons x xs =>
        simp only [List.cons_append, List.cons.injEq] at hh
        exact .inr ⟨xs, l2, hh.2⟩

end PdfAudio

namespace AudioPhyton

/-- Closed form of the chunking loop: starting at page `start` with chapter
counter `chapter`, it yields `⌈(num_pages - start) / ppc⌉` chunks, the `i`-th
covering pages `start + i*ppc` up to `min (start + (i+1)*ppc) num_pages`. -/
theorem chunkLoop_eq (pages : List (List Char)) (ppc : Nat) (hp : 0 < ppc) :
    ∀ fuel start chapter, pages.length - start ≤ fuel →
      chunkLoop pages ppc chapter start =
        (List.range ((pages.length - start + ppc - 1) / ppc)).map
          (fun i => (chapter + i,
            pageRangeText pages (start + i * ppc) (min (start + (i + 1) * ppc) pages.length))) := by
  intro fuel
  induction fuel with
  | zero =>
    intro start chapter h
    rw [chunkLoop, dif_neg (by omega)]
    have h0 : pages.length - start = 0 := by omega
    have : (pages.length - start + ppc - 1) / ppc = 0 := by
      rw [h0]; exact Nat.div_eq_of_lt (by omega)
    rw [this]; simp
  | succ fuel ih =>
    intro start chapter h
    rw [chunkLoop]
    by_cases hlt : start < pages.length
    · have hcond : start < pages.length ∧ 0 < ppc := ⟨hlt, hp⟩
      rw [dif_pos hcond]
      have hm1 : pages.length - start + ppc - 1 = (pages.length - start - 1) + ppc := by omega
      have hk : (pages.length - start + ppc - 1) / ppc
          = (pages.length - start - 1) / ppc + 1 := by
        rw [hm1]; exact Nat.add_div_right _ hp
      have hk' : (pages.length - min (start + ppc) pages.length + ppc - 1) / ppc
          = (pages.length - start - 1) / ppc := by
        by_cases hle : start + ppc ≤ pages.length
        · have : min (start + ppc) pages.length = start + ppc := by omega
          rw [this]
          congr 1
          omega
        · have hmin : min (start + ppc) pages.length = pages.length := by omega
          rw [hmin]
          have h1 : (pages.length - pages.length + ppc - 1) / ppc = 0 :=
            Nat.div_eq_of_lt (by omega)
          have h2 : (pages.length - start - 1) / ppc = 0 :=
            Nat.div_eq_of_lt (by omega)
          rw [h1, h2]
      rw [ih (min (start + ppc) pages.length) (chapter + 1) (by omega), hk, hk',
        List.range_succ_eq_map]
      simp only [List.map_cons, List.map_map]
      refine congrArg₂ _ ?_ ?_
      · simp
      · apply List.map_congr_left
        intro i hi
        simp only [Function.comp_apply]
        by_cases hle : start + ppc ≤ pages.length
        · have hmin : min (start + ppc) pages.length = start + ppc := by omega
          rw [hmin]
          refine congrArg₂ _ (by omega) ?_
          have e1 : start + ppc + i * ppc = start + (i + 1) * ppc := by ring
          have e2 : start + ppc + (i + 1) * ppc = start + (i + 1 + 1) * ppc := by ring
          rw [e1, e2]
        · -- here the tail index list is empty, so membership is vacuous
          exfalso
          have h2 : (pages.length - start - 1) / ppc = 0 :=
            Nat.div_eq_of_lt (by omega)
          rw [h2] at hi
          simp at hi
    · rw [dif_neg (by omega)]
      have : (pages.length - start + ppc - 1) / ppc = 0 := by
        have h0 : pages.length - start = 0 := by omega
        rw [h0]; exact Nat.div_eq_of_lt (by omega)
      rw [this]; simp

/-- Claim C10: for every document with at least one page and every chunk size
`ppc ≥ 1`, the page-chunked conversion produces exactly
`⌈num_pages / ppc⌉` chapters numbered consecutively from 1; the `i`-th chapter
(0-based) is the concatenated text of pages `i*ppc` up to
`min ((i+1)*ppc) num_pages` — exactly `ppc` consecutive pages except possibly
for the last chapter — and each page index belongs to exactly one chapter,
namely chapter `p / ppc`. -/
theorem C10_chunked_partition (pages : List (List Char)) (ppc : Nat)
    (hn : 1 ≤ pages.length) (hp : 1 ≤ ppc) :
    (pdf_to_audiobook pages ppc).length = (pages.length + ppc - 1) / ppc ∧
    (pdf_to_audiobook pages ppc).map Prod.fst =
      List.range' 1 ((pages.length + ppc - 1) / ppc) ∧
    (∀ i, i < (pages.length + ppc - 1) / ppc →
      (pdf_to_audiobook pages ppc)[i]? =
        some (i + 1, pageRangeText pages (i * ppc) (min ((i + 1) * ppc) pages.length))) ∧
    (∀ p, p < pages.length →
      p / ppc < (pages.length + ppc - 1) / ppc ∧
      ∀ i, (i * ppc ≤ p ∧ p < min ((i + 1) * ppc) pages.length) ↔ i = p / ppc) := by
  have hbase := chunkLoop_eq pages ppc hp pages.length 0 1 (by omega)
  have hform : pdf_to_audiobook pages ppc =
      (List.range ((pages.length + ppc - 1) / ppc)).map
        (fun i => (1 + i, pageRangeText pages (i * ppc) (min ((i + 1) * ppc) pages.length))) := by
    rw [pdf_to_audiobook, hbase]
    simp
  refine ⟨?_, ?_, ?_, ?_⟩
  · rw [hform]; simp
  · rw [hform, List.map_map, List.range'_eq_map_range]
    rfl
  · intro i hi
    rw [hform, List.getElem?_map, List.getElem?_range hi]
    simp [Nat.add_comm 1 i]
  · intro p hpp
    have hceil : (pages.length + ppc - 1) / ppc = (pages.length - 1) / ppc + 1 := by
      have h1 : pages.length + ppc - 1 = (pages.length - 1) + ppc := by omega
      rw [h1, Nat.add_div_right _ hp]
    constructor
    · rw [hceil]
      have h3 : p / ppc ≤ (pages.length - 1) / ppc :=
        Nat.div_le_div_right (by omega)
      omega
    · intro i
      constructor
      · rintro ⟨h1, h2⟩
        have h2' : p < (i + 1) * ppc := lt_of_lt_of_le h2 (min_le_left _ _)
        exact (Nat.div_eq_of_lt_le h1 h2').symm
      · rintro rfl
        refine ⟨Nat.div_mul_le_self p ppc, ?_⟩
        have hdm := Nat.div_add_mod p ppc
        have hml := Nat.mod_lt p hp
        have hexp : (p / ppc + 1) * ppc = p / ppc * ppc + ppc := by ring
        have hcm : ppc * (p / ppc) = p / ppc * ppc := by ring
        exact lt_min (by omega) hpp

/-- Witness for C10 at a concrete 5-page document with chunk size 2. -/
theorem C10_witness :
    (pdf_to_audiobook [['a'], ['b'], ['c'], ['d'], ['e']] 2).length = (5 + 2 - 1) / 2 ∧
    (pdf_to_audiobook [['a'], ['b'], ['c'], ['d'], ['e']] 2).map Prod.fst =
      List.range' 1 ((5 + 2 - 1) / 2) := by
  have h := C10_chunked_partition [['a'], ['b'], ['c'], ['d'], ['e']] 2
    (by decide) (by decide)
  exact ⟨h.1, h.2.1⟩

/-- Claim C8 (counterexample): the record appended by `add_bookmark` does not
contain the wall-clock time — calls at two different instants append the same
record, and the record text is exactly `"Chapter 3\n"`, carrying only the
chapter index. -/
theorem C8_counterexample :
    add_bookmark 0 ⟨3, .Playing, []⟩ = add_bookmark 987654321 ⟨3, .Playing, []⟩ ∧
    (add_bookmark 0 ⟨3, .Playing, []⟩).bookmarks = ["Chapter 3\n".data] := by
  exact ⟨rfl, rfl⟩

/-- Claim C8 (amended): in every playback state, `add_bookmark` appends to
the bookmark log one record containing the current chapter index only (no
wall-clock time: the result is independent of the instant of the call), and
leaves the playback state — the current chapter index and the mixer state —
unchanged. -/
theorem C8_amended_bookmark (now now' : Nat) (st : PlayerState) :
    (add_bookmark now st).current_chapter = st.current_chapter ∧
    (add_bookmark now st).mixer = st.mixer ∧
    (add_bookmark now st).bookmarks = st.bookmarks ++ [bookmarkLine st.current_chapter] ∧
    add_bookmark now st = add_bookmark now' st :=
  ⟨rfl, rfl, rfl, rfl⟩

/-- Claim C9: `pause_audio` transitions the playback machine from `Playing`
to `Paused` and is a no-op from any other state; `resume_audio` transitions
from `Paused` to `Playing` and is a no-op from any other state. -/
theorem C9_pause_resume_guards (st : PlayerState) :
    (st.mixer = .Playing → pause_audio st = { st with mixer := .Paused }) ∧
    (st.mixer ≠ .Playing → pause_audio st = st) ∧
    (st.mixer = .Paused → resume_audio st = { st with mixer := .Playing }) ∧
    (st.mixer ≠ .Paused → resume_audio st = st) := by
  obtain ⟨c, m, b⟩ := st
  cases m <;> simp [pause_audio, resume_audio, get_busy, mixerPause, mixerUnpause]

/-- Witness for C9 at concrete playback states. -/
theorem C9_witness :
    pause_audio ⟨1, .Playing, []⟩ = ⟨1, .Paused, []⟩ ∧
    resume_audio ⟨1, .Paused, []⟩ = ⟨1, .Playing, []⟩ ∧
    pause_audio ⟨1, .Stopped, []⟩ = ⟨1, .Stopped, []⟩ ∧
    resume_audio ⟨1, .Playing, []⟩ = ⟨1, .Playing, []⟩ :=
  ⟨(C9_pause_resume_guards _).1 rfl,
   (C9_pause_resume_guards _).2.2.1 rfl,
   (C9_pause_resume_guards _).2.1 (by decide),
   (C9_pause_resume_guards _).2.2.2 (by decide)⟩

end AudioPhyton

namespace PdfAudio

/-! ### The synthesis batch (claims C1, C7) -/

/-- When every unit synthesizes successfully, the conversion loop returns all
planned audio artifacts, in task order. -/
theorem convertLoop_ok (synthOk : List Char → Bool) :
    ∀ l acc, (∀ t ∈ l, synthOk t = true) →
      convertLoop synthOk l acc = .ok (acc ++ l.map audioFileName) := by
  intro l
  induction l with
  | nil => intro acc _; simp [convertLoop]
  | cons t rest ih =>
    intro acc h
    rw [convertLoop, if_pos (h t (List.mem_cons_self _ _)),
      ih _ (fun u hu => h u (List.mem_cons_of_mem _ hu))]
    simp

/-- When a unit fails after a prefix of successes, the conversion loop raises
with exactly the earlier successes' artifacts on disk: the failing unit's
partial artifact has been deleted and no later unit is processed. -/
theorem convertLoop_error (synthOk : List Char → Bool) :
    ∀ pre t post acc, (∀ u ∈ pre, synthOk u = true) → synthOk t = false →
      convertLoop synthOk (pre ++ t :: post) acc = .error (acc ++ pre.map audioFileName) := by
  intro pre
  induction pre with
  | nil =>
    intro t post acc _ hf
    simp [convertLoop, hf]
  | cons u pre ih =>
    intro t post acc h hf
    rw [List.cons_append, convertLoop, if_pos (h u (List.mem_cons_self _ _)),
      ih t post _ (fun v hv => h v (List.mem_cons_of_mem _ hv)) hf]
    simp

/-- A list with a failing element splits at its first failing element. -/
theorem exists_first_failure {α : Type} (ok : α → Bool) :
    ∀ l : List α, (∃ t ∈ l, ok t = false) →
      ∃ pre t post, l = pre ++ t :: post ∧ (∀ u ∈ pre, ok u = true) ∧ ok t = false := by
  intro l
  induction l with
  | nil => rintro ⟨t, ht, _⟩; cases ht
  | cons a rest ih =>
    rintro ⟨t, ht, hf⟩
    by_cases ha : ok a = true
    · have hr : ∃ t ∈ rest, ok t = false := by
        rcases List.mem_cons.1 ht with rfl | hm
        · rw [ha] at hf; cases hf
        · exact ⟨t, hm, hf⟩
      rcases ih hr with ⟨pre, t', post, heq, hpre, hf'⟩
      refine ⟨a :: pre, t', post, by rw [heq, List.cons_append], ?_, hf'⟩
      intro u hu
      rcases List.mem_cons.1 hu with rfl | hm
      · exact ha
      · exact hpre u hm
    · exact ⟨[], a, rest, rfl, by simp, by simpa using ha⟩

/-- Claim C1 (counterexample): with two persisted units where synthesis fails
on the first, the run aborts with `CriticalError` and produces no manifest at
all — the claim instead predicts that processing continues and the final
manifest holds `N - 1 = 1` entry. -/
theorem C1_counterexample :
    audioPhase ["a.txt".data, "b.txt".data]
        (fun t => !(decide (t = "a.txt".data))) (fun _ => some 5)
      = .error .CriticalError ∧
    isOkE (audioPhase ["a.txt".data, "b.txt".data]
        (fun t => !(decide (t = "a.txt".data))) (fun _ => some 5)) = false :=
  ⟨rfl, rfl⟩

/-- Claim C1 (amended): a synthesis failure on one unit deletes that unit's
partial audio artifact and logs it, but the exception propagates: the run
aborts with `CriticalError`, units after the failing one are never
synthesized, and no manifest is produced.  (At the moment of the abort the
disk holds exactly the artifacts of the units that succeeded before the
failing one.)  Separately, an empty batch fails with `NoAudioProduced`. -/
theorem C1_amended_synthesis_abort (persisted : List (List Char))
    (synthOk : List Char → Bool) (durationMs : List Char → Option Nat) :
    ((∃ t ∈ sortNames persisted, synthOk t = false) →
      audioPhase persisted synthOk durationMs = .error .CriticalError) ∧
    (∀ pre t post, sortNames persisted = pre ++ t :: post →
      (∀ u ∈ pre, synthOk u = true) → synthOk t = false →
      convertLoop synthOk (sortNames persisted) [] = .error (pre.map audioFileName)) ∧
    (persisted = [] → audioPhase persisted synthOk durationMs = .error .NoAudioProduced) := by
  refine ⟨?_, ?_, ?_⟩
  · intro hex
    rcases exists_first_failure synthOk _ hex with ⟨pre, t, post, heq, hpre, hf⟩
    unfold audioPhase
    rw [heq, convertLoop_error synthOk pre t post [] hpre hf]
  · intro pre t post heq hpre hf
    rw [heq, convertLoop_error synthOk pre t post [] hpre hf]
    simp
  · rintro rfl
    rfl

/-- Witness for C1 at a concrete two-unit batch failing on the second unit. -/
theorem C1_witness :
    audioPhase ["a.txt".data, "b.txt".data]
        (fun t => decide (t ≠ "b.txt".data)) (fun _ => some 5)
      = .error .CriticalError ∧
    convertLoop (fun t => decide (t ≠ "b.txt".data))
        (sortNames ["a.txt".data, "b.txt".data]) []
      = .error (["a.txt".data].map audioFileName) := by
  have h := C1_amended_synthesis_abort ["a.txt".data, "b.txt".data]
    (fun t => decide (t ≠ "b.txt".data)) (fun _ => some 5)
  exact ⟨h.1 ⟨"b.txt".data, by decide, by decide⟩,
    h.2.1 ["a.txt".data] "b.txt".data [] (by decide) (by decide) (by decide)⟩

/-! ### Manifest generation (claims C2, C3) -/

/-- The two lists built by the metadata loop have equal length. -/
theorem metaLoop_len (fex : List Char → Bool) (dur : List Char → Option Nat) :
    ∀ files t, (metaLoop fex dur files t).1.length = (metaLoop fex dur files t).2.length := by
  intro files
  induction files with
  | nil => intro t; rfl
  | cons f rest ih =>
    intro t
    by_cases hf : fex f
    · rcases hd : dur f with _ | d <;> simp [metaLoop, hf, hd, ih]
    · simp [metaLoop, hf, ih]

/-- The first entry written by the metadata loop starts at the running offset
passed in. -/
theorem metaLoop_head_start (fex : List Char → Bool) (dur : List Char → Option Nat) :
    ∀ files t e, (metaLoop fex dur files t).1.head? = some e → e.startMs = t := by
  intro files
  induction files with
  | nil => intro t e h; cases h
  | cons f rest ih =>
    intro t e h
    by_cases hf : fex f
    · rcases hd : dur f with _ | d
      · rw [metaLoop] at h; rw [if_pos hf, hd] at h; exact ih t e h
      · rw [metaLoop] at h; rw [if_pos hf, hd] at h
        simp only [List.head?_cons, Option.some.injEq] at h
        rw [← h]
    · rw [metaLoop, if_neg hf] at h; exact ih t e h

/-- Adjacent entries written by the metadata loop abut: each entry's `END`
equals the next entry's `START`. -/
theorem metaLoop_chain (fex : List Char → Bool) (dur : List Char → Option Nat) :
    ∀ files t, List.Chain' (fun a b => a.endMs = b.startMs) (metaLoop fex dur files t).1 := by
  intro files
  induction files with
  | nil => intro t; simp [metaLoop]
  | cons f rest ih =>
    intro t
    by_cases hf : fex f
    · rcases hd : dur f with _ | d
      · rw [metaLoop]; rw [if_pos hf, hd]; exact ih t
      · rw [metaLoop]; rw [if_pos hf, hd]
        refine List.chain'_cons'.2 ⟨?_, ih (t + d)⟩
        intro y hy
        exact (metaLoop_head_start fex dur rest (t + d) y hy).symm
    · rw [metaLoop, if_neg hf]; exact ih t

/-- Entry/file correspondence of the metadata loop: every written entry
belongs to a file that exists and is readable, its `END` is its `START` plus
that file's measured duration, and its title is the file's stem. -/
theorem metaLoop_zip (fex : List Char → Bool) (dur : List Char → Option Nat) :
    ∀ files t, ∀ p ∈ (metaLoop fex dur files t).1.zip (metaLoop fex dur files t).2,
      fex p.2 = true ∧ dur p.2 = some (p.1.endMs - p.1.startMs) ∧
      p.1.startMs ≤ p.1.endMs ∧ p.1.title = stemOf p.2 := by
  intro files
  induction files with
  | nil => intro t p hp; cases hp
  | cons f rest ih =>
    intro t p hp
    by_cases hf : fex f
    · rcases hd : dur f with _ | d
      · rw [metaLoop] at hp; rw [if_pos hf, hd] at hp; exact ih t p hp
      · rw [metaLoop] at hp; rw [if_pos hf, hd] at hp
        rw [List.zip_cons_cons] at hp
        rcases List.mem_cons.1 hp with rfl | hm
        · exact ⟨hf, by simpa using hd, by simp, rfl⟩
        · exact ih (t + d) p hm
    · rw [metaLoop, if_neg hf] at hp; exact ih t p hp

/-- The manifest titles are the stems of the valid audio files, in order. -/
theorem metaLoop_titles (fex : List Char → Bool) (dur : List Char → Option Nat) :
    ∀ files t,
      (metaLoop fex dur files t).1.map MetaEntry.title =
        (metaLoop fex dur files t).2.map stemOf := by
  intro files
  induction files with
  | nil => intro t; rfl
  | cons f rest ih =>
    intro t
    by_cases hf : fex f
    · rcases hd : dur f with _ | d <;> · rw [metaLoop]; rw [if_pos hf, hd]; simp [ih]
    · rw [metaLoop, if_neg hf]; exact ih t

/-- The valid audio files are an order-preserving selection of the walked
audio files. -/
theorem metaLoop_sublist (fex : List Char → Bool) (dur : List Char → Option Nat) :
    ∀ files t, (metaLoop fex dur files t).2.Sublist files := by
  intro files
  induction files with
  | nil => intro t; simp [metaLoop]
  | cons f rest ih =>
    intro t
    by_cases hf : fex f
    · rcases hd : dur f with _ | d
      · rw [metaLoop]; rw [if_pos hf, hd]; exact (ih t).cons f
      · rw [metaLoop]; rw [if_pos hf, hd]
        exact List.Sublist.cons₂ f (ih (t + d))
    · rw [metaLoop, if_neg hf]; exact (ih t).cons f

/-- The metadata loop writes an entry exactly when it keeps a file. -/
theorem metaLoop_nil_iff (fex : List Char → Bool) (dur : List Char → Option Nat) :
    ∀ files t, ((metaLoop fex dur files t).1 = [] ↔ (metaLoop fex dur files t).2 = []) := by
  intro files t
  have h := metaLoop_len fex dur files t
  constructor
  · intro h1
    have h0 : (metaLoop fex dur files t).2.length = 0 := by
      rw [h1] at h; simpa using h.symm
    exact List.length_eq_zero.1 h0
  · intro h2
    have h0 : (metaLoop fex dur files t).1.length = 0 := by
      rw [h2] at h; simpa using h
    exact List.length_eq_zero.1 h0

/-- An abutting chain of entries whose offsets all strictly advance has
strictly increasing `START` offsets. -/
theorem chain_lt_of_chain_eq :
    ∀ es : List MetaEntry, List.Chain' (fun a b => a.endMs = b.startMs) es →
      (∀ e ∈ es, e.startMs < e.endMs) →
      List.Chain' (fun a b => a.startMs < b.startMs) es := by
  intro es
  induction es with
  | nil => intro _ _; simp
  | cons a l ih =>
    intro hc hpos
    rcases l with _ | ⟨b, l'⟩
    · simp
    · rcases List.chain'_cons.1 hc with ⟨hab, hc'⟩
      refine List.chain'_cons.2 ⟨?_, ih hc' (fun e he => hpos e (List.mem_cons_of_mem _ he))⟩
      have := hpos a (List.mem_cons_self _ _)
      omega

/-- Claim C3 (counterexample): a readable segment of measured duration 0 is
a valid input to manifest generation, and it yields two entries whose `START`
offsets are both 0 — the offsets are not strictly increasing, while all the
other clauses of the claim hold. -/
theorem C3_counterexample :
    create_chapters_metadata ["x.mp3".data, "y.mp3".data] (fun _ => true)
        (fun f => if f = "x.mp3".data then some 0 else some 5)
      = .ok ([⟨0, 0, "x".data⟩, ⟨0, 5, "y".data⟩], ["x.mp3".data, "y.mp3".data]) ∧
    ¬ ((⟨0, 0, "x".data⟩ : MetaEntry).startMs < (⟨0, 5, "y".data⟩ : MetaEntry).startMs) :=
  ⟨rfl, by decide⟩

/-- Claim C3 (amended): for every manifest produced from a non-empty valid
segment set, the first entry's `START` offset is 0, every entry's `END` equals
the next entry's `START`, each entry's `END` equals its `START` plus that
segment's measured duration, and only segments that exist and are readable
contribute entries (one per valid segment, in walk order).  The offsets are
non-decreasing in general, and strictly increasing whenever every
contributing segment's measured duration is positive (which the source does
not enforce: a zero-duration segment yields equal consecutive offsets). -/
theorem C3_amended_manifest_offsets (audio_files : List (List Char))
    (fexists : List Char → Bool) (durationMs : List Char → Option Nat)
    (es : List MetaEntry) (vs : List (List Char))
    (hok : create_chapters_metadata audio_files fexists durationMs = .ok (es, vs)) :
    (∀ e, es.head? = some e → e.startMs = 0) ∧
    List.Chain' (fun a b => a.endMs = b.startMs) es ∧
    es.length = vs.length ∧
    es ≠ [] ∧
    vs.Sublist audio_files ∧
    (∀ p ∈ es.zip vs, fexists p.2 = true ∧ durationMs p.2 = some (p.1.endMs - p.1.startMs) ∧
      p.1.startMs ≤ p.1.endMs ∧ p.1.title = stemOf p.2) ∧
    ((∀ e ∈ es, e.startMs < e.endMs) →
      List.Chain' (fun a b => a.startMs < b.startMs) es) := by
  unfold create_chapters_metadata at hok
  by_cases hemp : (metaLoop fexists durationMs audio_files 0).2.isEmpty
  · rw [if_pos hemp] at hok; cases hok
  · rw [if_neg hemp] at hok
    have hes : (metaLoop fexists durationMs audio_files 0).1 = es :=
      congrArg Prod.fst (by simpa using hok)
    have hvs : (metaLoop fexists durationMs audio_files 0).2 = vs :=
      congrArg Prod.snd (by simpa using hok)
    subst hes
    subst hvs
    refine ⟨metaLoop_head_start fexists durationMs audio_files 0,
      metaLoop_chain fexists durationMs audio_files 0, metaLoop_len fexists durationMs audio_files 0,
      ?_, metaLoop_sublist fexists durationMs audio_files 0,
      metaLoop_zip fexists durationMs audio_files 0, ?_⟩
    · intro h1
      exact hemp (by simp [(metaLoop_nil_iff fexists durationMs audio_files 0).1 h1])
    · exact chain_lt_of_chain_eq _ (metaLoop_chain fexists durationMs audio_files 0)

/-- Witness for C3 at a concrete two-segment set with durations 3 and 4. -/
theorem C3_witness :
    create_chapters_metadata ["x.mp3".data, "y.mp3".data] (fun _ => true)
        (fun f => if f = "x.mp3".data then some 3 else some 4)
      = .ok ([⟨0, 3, "x".data⟩, ⟨3, 7, "y".data⟩], ["x.mp3".data, "y.mp3".data]) ∧
    (∀ e, [(⟨0, 3, "x".data⟩ : MetaEntry), ⟨3, 7, "y".data⟩].head? = some e → e.startMs = 0) ∧
    List.Chain' (fun a b => a.endMs = b.startMs)
      [(⟨0, 3, "x".data⟩ : MetaEntry), ⟨3, 7, "y".data⟩] := by
  have h := C3_amended_manifest_offsets ["x.mp3".data, "y.mp3".data] (fun _ => true)
    (fun f => if f = "x.mp3".data then some 3 else some 4)
    [⟨0, 3, "x".data⟩, ⟨3, 7, "y".data⟩] ["x.mp3".data, "y.mp3".data] rfl
  exact ⟨rfl, h.1, h.2.1⟩

/-! ### Chapter persistence (claim C7) -/

/-- Closed form of the persistence loop: the files written are exactly the
chapters whose write succeeded, each named by its index and title, in chapter
order. -/
theorem saveLoop_eq (writeOk : Nat → Bool) :
    ∀ l idx, saveLoop writeOk idx l =
      ((List.enumFrom idx l).filter (fun e => writeOk e.1)).map
        (fun e => chapterFileName e.1 e.2.1) := by
  intro l
  induction l with
  | nil => intro idx; rfl
  | cons x rest ih =>
    intro idx
    obtain ⟨title, txt⟩ := x
    by_cases h : writeOk idx <;>
      simp [saveLoop, List.enumFrom_cons, List.filter_cons, h, ih (idx + 1)]

/-- Claim C7 (counterexample): when every write fails, `save_chapters`
persists nothing and returns normally — no `NoChaptersSaved` failure is
escalated to the caller; the run only dies later, in the synthesis stage,
with the unrelated `NoAudioProduced` outcome. -/
theorem C7_counterexample :
    save_chapters [("T".data, "x".data)] (fun _ => false) = [] ∧
    saveAndAudio [("T".data, "x".data)] (fun _ => false) (fun _ => true) (fun _ => some 5)
      = .error .NoAudioProduced ∧
    PipelineError.NoAudioProduced ≠ PipelineError.NoChaptersSaved :=
  ⟨rfl, rfl, by decide⟩

/-- Claim C7 (amended): a write failure for one chapter is logged and that
chapter is excluded from the persisted artifacts while the other chapters are
still written (the persisted set is exactly the write-successful chapters, in
order); but `save_chapters` itself escalates nothing — even with zero units
persisted it returns normally, and the empty batch only surfaces later as the
synthesis stage's `NoAudioProduced` failure, never as `NoChaptersSaved`. -/
theorem C7_amended_save_contract (extracted : List (List Char × List Char))
    (writeOk : Nat → Bool) :
    save_chapters extracted writeOk =
      ((List.enumFrom 0 extracted).filter (fun e => writeOk e.1)).map
        (fun e => chapterFileName e.1 e.2.1) ∧
    (∀ synthOk durationMs, save_chapters extracted writeOk = [] →
      saveAndAudio extracted writeOk synthOk durationMs = .error .NoAudioProduced) := by
  constructor
  · exact saveLoop_eq writeOk extracted 0
  · intro synthOk durationMs h0
    unfold saveAndAudio
    rw [h0]
    rfl

/-- Witness for C7: with two chapters and the first write failing, exactly the
second chapter's artifact is persisted; an all-failing single-chapter batch
later dies with `NoAudioProduced`. -/
theorem C7_witness :
    save_chapters [("A".data, "x".data), ("B".data, "y".data)] (fun i => decide (i ≠ 0))
      = [chapterFileName 1 "B".data] ∧
    saveAndAudio [("A".data, "x".data)] (fun _ => false) (fun _ => true) (fun _ => some 5)
      = .error .NoAudioProduced := by
  have h1 := C7_amended_save_contract [("A".data, "x".data), ("B".data, "y".data)]
    (fun i => decide (i ≠ 0))
  have h2 := C7_amended_save_contract [("A".data, "x".data)] (fun _ => false)
  refine ⟨?_, h2.2 (fun _ => true) (fun _ => some 5) rfl⟩
  rw [h1.1]
  decide

/-! ### End-to-end ordering (claim C2) -/

/-- Lexicographic comparison is decided at the first differing character:
a list whose character at the divergence point is larger is never `lexLt`
the smaller one. -/
theorem lexLt_append_lt :
    ∀ (pre : List Char) {x y : Char} (u v : List Char), x < y →
      lexLt (pre ++ y :: v) (pre ++ x :: u) = false := by
  intro pre
  induction pre with
  | nil =>
    intro x y u v h
    simp only [List.nil_append, lexLt]
    rw [if_neg (lt_asymm h), if_pos h]
  | cons c pre ih =>
    intro x y u v h
    simp only [List.cons_append, lexLt]
    rw [if_neg (lt_irrefl c), if_neg (lt_irrefl c)]
    exact ih u v h

/-- Two chapter artifact names compare by their first digit when the shared
`chapter_` prefix is followed by single digits. -/
theorem lexLe_of_digit (c c' : Char) (h : c < c') (r r' : List Char) :
    lexLe ("chapter_".data ++ c :: r) ("chapter_".data ++ c' :: r') = true := by
  unfold lexLe
  rw [lexLt_append_lt "chapter_".data r r' h]
  rfl

/-- A number below ten prints as its single digit character. -/
theorem toDigits_lt10 (n : Nat) (h : n < 10) : Nat.toDigits 10 n = [Nat.digitChar n] := by
  simp [Nat.toDigits, Nat.toDigitsCore, Nat.div_eq_of_lt h, Nat.mod_eq_of_lt h]

/-- Digit characters are ordered like the digits they print. -/
theorem digitChar_lt_digitChar : ∀ i j : Nat, i < j → j ≤ 9 → Nat.digitChar i < Nat.digitChar j := by
  intro i j hij hj
  interval_cases j <;> interval_cases i <;> decide

/-- For chapter positions up to the ninth, artifact names compare
lexicographically in index order, whatever the title slugs are. -/
theorem nameLe (i j : Nat) (t t' : List Char) (hij : i < j) (hj : j ≤ 8) :
    lexLe (chapterFileName i t) (chapterFileName j t') = true := by
  have hdi : Nat.toDigits 10 (i + 1) = [Nat.digitChar (i + 1)] := toDigits_lt10 _ (by omega)
  have hdj : Nat.toDigits 10 (j + 1) = [Nat.digitChar (j + 1)] := toDigits_lt10 _ (by omega)
  rw [chapterFileName, chapterFileName, hdi, hdj]
  simp only [List.append_assoc, List.singleton_append]
  exact lexLe_of_digit _ _ (digitChar_lt_digitChar _ _ (by omega) (by omega)) _ _

/-- Every file persisted by the save loop is a chapter artifact whose index
lies in the window of the chapters being written. -/
theorem saveLoop_mem (writeOk : Nat → Bool) :
    ∀ l idx y, y ∈ saveLoop writeOk idx l →
      ∃ j t', y = chapterFileName j t' ∧ idx ≤ j ∧ j < idx + l.length := by
  intro l
  induction l with
  | nil => intro idx y h; cases h
  | cons x rest ih =>
    intro idx y h
    obtain ⟨title, txt⟩ := x
    by_cases hw : writeOk idx
    · rw [saveLoop, if_pos hw] at h
      rcases List.mem_cons.1 h with rfl | hm
      · exact ⟨idx, title, rfl, le_refl _, by simp⟩
      · rcases ih (idx + 1) y hm with ⟨j, t', rfl, h1, h2⟩
        exact ⟨j, t', rfl, by omega, by simp only [List.length_cons]; omega⟩
    · rw [saveLoop, if_neg hw] at h
      rcases ih (idx + 1) y h with ⟨j, t', rfl, h1, h2⟩
      exact ⟨j, t', rfl, by omega, by simp only [List.length_cons]; omega⟩

/-- With at most nine chapters in play, the persisted artifact names come out
of the save loop already in lexicographic order. -/
theorem saveLoop_chain (writeOk : Nat → Bool) :
    ∀ l idx, idx + l.length ≤ 9 →
      List.Chain' (fun a b => lexLe a b = true) (saveLoop writeOk idx l) := by
  intro l
  induction l with
  | nil => intro idx _; simp [saveLoop]
  | cons x rest ih =>
    intro idx hle
    obtain ⟨title, txt⟩ := x
    simp only [List.length_cons] at hle
    by_cases hw : writeOk idx
    · rw [saveLoop, if_pos hw]
      refine List.chain'_cons'.2 ⟨?_, ih (idx + 1) (by omega)⟩
      intro y hy
      rcases saveLoop_mem writeOk rest (idx + 1) y (List.mem_of_mem_head? hy)
        with ⟨j, t', rfl, h1, h2⟩
      exact nameLe idx j title t' (by omega) (by omega)
    · rw [saveLoop, if_neg hw]
      exact ih (idx + 1) (by omega)

/-- Sorting a list that is already `lexLe`-ordered changes nothing. -/
theorem sortNames_eq_self : ∀ l, List.Chain' (fun a b => lexLe a b = true) l →
    sortNames l = l := by
  intro l
  induction l with
  | nil => intro _; rfl
  | cons a l ih =>
    intro h
    cases l with
    | nil => rfl
    | cons b l' =>
      rcases List.chain'_cons.1 h with ⟨hab, ht⟩
      rw [sortNames, ih ht, insName, if_pos hab]

/-- A successful audio phase is a successful metadata stage over the planned
audio files in sorted-name order (for some existence oracle). -/
theorem audioPhase_ok_inv (persisted : List (List Char)) (synthOk : List Char → Bool)
    (durationMs : List Char → Option Nat) (es : List MetaEntry) (vs : List (List Char))
    (h : audioPhase persisted synthOk durationMs = .ok (es, vs)) :
    ∃ fex, create_chapters_metadata ((sortNames persisted).map audioFileName) fex durationMs
      = .ok (es, vs) := by
  unfold audioPhase at h
  cases hcv : convertLoop synthOk (sortNames persisted) [] with
  | error e => rw [hcv] at h; cases h
  | ok produced =>
    rw [hcv] at h
    dsimp only at h
    by_cases hemp : produced.isEmpty
    · rw [if_pos hemp] at h; cases h
    · rw [if_neg hemp] at h; exact ⟨_, h⟩

/-- Claim C2 (counterexample): a run with ten chapters.  At extraction time
the persisted artifacts are `chapter_1_.txt … chapter_10_.txt` in ascending
chapter index, but the synthesis stage sorts the glob lexicographically and
processes `chapter_10_.txt` first; the manifest and concatenation follow that
same lexicographic order, so none of the three orders equals ascending
chapter index. -/
theorem C2_counterexample :
    save_chapters (List.replicate 10 (([] : List Char), ([] : List Char))) (fun _ => true)
      = ["chapter_1_.txt".data, "chapter_2_.txt".data, "chapter_3_.txt".data,
         "chapter_4_.txt".data, "chapter_5_.txt".data, "chapter_6_.txt".data,
         "chapter_7_.txt".data, "chapter_8_.txt".data, "chapter_9_.txt".data,
         "chapter_10_.txt".data] ∧
    sortNames (save_chapters (List.replicate 10 (([] : List Char), ([] : List Char)))
        (fun _ => true))
      = ["chapter_10_.txt".data, "chapter_1_.txt".data, "chapter_2_.txt".data,
         "chapter_3_.txt".data, "chapter_4_.txt".data, "chapter_5_.txt".data,
         "chapter_6_.txt".data, "chapter_7_.txt".data, "chapter_8_.txt".data,
         "chapter_9_.txt".data] ∧
    sortNames (save_chapters (List.replicate 10 (([] : List Char), ([] : List Char)))
        (fun _ => true))
      ≠ save_chapters (List.replicate 10 (([] : List Char), ([] : List Char)))
          (fun _ => true) ∧
    audioPhase (save_chapters (List.replicate 10 (([] : List Char), ([] : List Char)))
        (fun _ => true)) (fun _ => true) (fun _ => some 1)
      = .ok ([⟨0, 1, "chapter_10_".data⟩, ⟨1, 2, "chapter_1_".data⟩,
              ⟨2, 3, "chapter_2_".data⟩, ⟨3, 4, "chapter_3_".data⟩,
              ⟨4, 5, "chapter_4_".data⟩, ⟨5, 6, "chapter_5_".data⟩,
              ⟨6, 7, "chapter_6_".data⟩, ⟨7, 8, "chapter_7_".data⟩,
              ⟨8, 9, "chapter_8_".data⟩, ⟨9, 10, "chapter_9_".data⟩],
             ["chapter_10_.mp3".data, "chapter_1_.mp3".data, "chapter_2_.mp3".data,
              "chapter_3_.mp3".data, "chapter_4_.mp3".data, "chapter_5_.mp3".data,
              "chapter_6_.mp3".data, "chapter_7_.mp3".data, "chapter_8_.mp3".data,
              "chapter_9_.mp3".data]) := by
  refine ⟨by decide, by decide, by decide, rfl⟩

/-- Claim C2 (amended): for every pipeline run the synthesis order, the
manifest order and the concatenation order are identical — all three follow
the lexicographically sorted artifact-name order, the manifest and the
concatenated list being the valid-file selection of it in unchanged order.
That common order equals ascending chapter index only while the run has at
most nine chapters (single-digit names); from ten chapters on the
lexicographic order diverges from ascending chapter index. -/
theorem C2_amended_orders (persisted : List (List Char)) (synthOk : List Char → Bool)
    (durationMs : List Char → Option Nat) (es : List MetaEntry) (vs : List (List Char))
    (hok : audioPhase persisted synthOk durationMs = .ok (es, vs)) :
    es.map MetaEntry.title = (merge_audio_with_chapters vs).map stemOf ∧
    vs.Sublist ((sortNames persisted).map audioFileName) ∧
    (∀ (extracted : List (List Char × List Char)) (writeOk : Nat → Bool),
      extracted.length ≤ 9 →
      sortNames (save_chapters extracted writeOk) = save_chapters extracted writeOk) := by
  rcases audioPhase_ok_inv persisted synthOk durationMs es vs hok with ⟨fex, hmeta⟩
  unfold create_chapters_metadata at hmeta
  by_cases hemp : (metaLoop fex durationMs ((sortNames persisted).map audioFileName) 0).2.isEmpty
  · rw [if_pos hemp] at hmeta; cases hmeta
  · rw [if_neg hemp] at hmeta
    have hes : (metaLoop fex durationMs ((sortNames persisted).map audioFileName) 0).1 = es :=
      congrArg Prod.fst (by simpa using hmeta)
    have hvs : (metaLoop fex durationMs ((sortNames persisted).map audioFileName) 0).2 = vs :=
      congrArg Prod.snd (by simpa using hmeta)
    subst hes
    subst hvs
    refine ⟨metaLoop_titles fex durationMs _ 0,
      metaLoop_sublist fex durationMs _ 0, ?_⟩
    intro extracted writeOk hlen
    exact sortNames_eq_self _ (saveLoop_chain writeOk extracted 0 (by omega))

/-- Witness for C2 at a concrete two-chapter run. -/
theorem C2_witness :
    audioPhase ["chapter_1_A.txt".data, "chapter_2_B.txt".data]
        (fun _ => true) (fun _ => some 4)
      = .ok ([⟨0, 4, "chapter_1_A".data⟩, ⟨4, 8, "chapter_2_B".data⟩],
             ["chapter_1_A.mp3".data, "chapter_2_B.mp3".data]) ∧
    [⟨0, 4, "chapter_1_A".data⟩, (⟨4, 8, "chapter_2_B".data⟩ : MetaEntry)].map MetaEntry.title
      = (merge_audio_with_chapters ["chapter_1_A.mp3".data, "chapter_2_B.mp3".data]).map stemOf ∧
    sortNames (save_chapters [("A".data, "x".data), ("B".data, "y".data)] (fun _ => true))
      = save_chapters [("A".data, "x".data), ("B".data, "y".data)] (fun _ => true) := by
  have h := C2_amended_orders ["chapter_1_A.txt".data, "chapter_2_B.txt".data]
    (fun _ => true) (fun _ => some 4)
    [⟨0, 4, "chapter_1_A".data⟩, ⟨4, 8, "chapter_2_B".data⟩]
    ["chapter_1_A.mp3".data, "chapter_2_B.mp3".data] rfl
  exact ⟨rfl, h.1, h.2.2 [("A".data, "x".data), ("B".data, "y".data)] (fun _ => true) (by decide)⟩

/-! ### The heuristic chapter scan (claims C4, C5, C6) -/

/-- Key membership distributes over append. -/
theorem hasKey_append (c : List Char) :
    ∀ l1 l2, hasKey c (l1 ++ l2) = (hasKey c l1 || hasKey c l2) := by
  intro l1 l2
  induction l1 with
  | nil => simp [hasKey]
  | cons e r ih => simp [hasKey, ih, Bool.or_assoc]

/-- `hasKey` tests key membership. -/
theorem hasKey_iff (c : List Char) :
    ∀ l, hasKey c l = true ↔ ∃ e ∈ l, e.1 = c := by
  intro l
  induction l with
  | nil => simp [hasKey]
  | cons e r ih =>
    simp only [hasKey, Bool.or_eq_true, decide_eq_true_eq, ih, List.mem_cons]
    constructor
    · rintro (h | ⟨f, hf, hfc⟩)
      · exact ⟨e, .inl rfl, h⟩
      · exact ⟨f, .inr hf, hfc⟩
    · rintro ⟨f, hf | hf, hfc⟩
      · exact .inl (hf ▸ hfc)
      · exact .inr ⟨f, hf, hfc⟩

/-- Lookup distributes over append, preferring the left list. -/
theorem lookupPage_append (c : List Char) :
    ∀ l1 l2, lookupPage c (l1 ++ l2) =
      match lookupPage c l1 with
      | some v => some v
      | none => lookupPage c l2 := by
  intro l1 l2
  induction l1 with
  | nil => simp [lookupPage]
  | cons e r ih =>
    by_cases h : e.1 = c
    · simp [lookupPage, h]
    · simp [lookupPage, h, ih]

/-- A key is absent exactly when its lookup fails. -/
theorem lookupPage_none_iff (c : List Char) :
    ∀ l, lookupPage c l = none ↔ hasKey c l = false := by
  intro l
  induction l with
  | nil => simp [lookupPage, hasKey]
  | cons e r ih =>
    by_cases h : e.1 = c
    · simp [lookupPage, hasKey, h]
    · simp [lookupPage, hasKey, h, ih]

/-- The inner candidate loop only appends: the incoming dict is preserved as
a prefix, and every appended entry records the scanned page, a candidate
title, and a successful substring match. -/
theorem addChapters_tail (text : List Char) (p : Nat) :
    ∀ cs acc, ∃ tl, addChapters text p cs acc = acc ++ tl ∧
      ∀ e ∈ tl, e.2 = p ∧ e.1 ∈ cs ∧ isSubstr e.1 text = true := by
  intro cs
  induction cs with
  | nil => intro acc; exact ⟨[], by simp [addChapters], by simp⟩
  | cons c cs ih =>
    intro acc
    by_cases h : isSubstr c text && !hasKey c acc
    · rcases ih (acc ++ [(c, p)]) with ⟨tl, heq, hall⟩
      refine ⟨(c, p) :: tl, ?_, ?_⟩
      · rw [addChapters, if_pos h, heq, List.append_assoc]
        rfl
      · intro e he
        rcases List.mem_cons.1 he with rfl | hm
        · exact ⟨rfl, List.mem_cons_self _ _, (Bool.and_eq_true _ _ ▸ h).1⟩
        · rcases hall e hm with ⟨h1, h2, h3⟩
          exact ⟨h1, List.mem_cons_of_mem _ h2, h3⟩
    · rcases ih acc with ⟨tl, heq, hall⟩
      refine ⟨tl, by rw [addChapters, if_neg h, heq], ?_⟩
      intro e he
      rcases hall e he with ⟨h1, h2, h3⟩
      exact ⟨h1, List.mem_cons_of_mem _ h2, h3⟩

/-- Left component of a true conjunction of booleans. -/
theorem band_left {a b : Bool} (h : (a && b) = true) : a = true :=
  (Bool.and_eq_true a b ▸ h).1

/-- Right component of a true conjunction of booleans. -/
theorem band_right {a b : Bool} (h : (a && b) = true) : b = true :=
  (Bool.and_eq_true a b ▸ h).2

/-- Lookup after the inner candidate loop: an existing entry is untouched; a
missing key gains the scanned page exactly when it is a matching candidate. -/
theorem addChapters_lookup (text : List Char) (p : Nat) :
    ∀ cs acc c, lookupPage c (addChapters text p cs acc) =
      match lookupPage c acc with
      | some q => some q
      | none => if c ∈ cs ∧ isSubstr c text = true then some p else none := by
  intro cs
  induction cs with
  | nil =>
    intro acc c
    rw [addChapters]
    cases hl : lookupPage c acc <;> simp [hl]
  | cons c' cs ih =>
    intro acc c
    have hmemI : ¬ c' = c → ((c ∈ c' :: cs) ↔ c ∈ cs) := by
      intro hcc
      constructor
      · intro h
        rcases List.mem_cons.1 h with rfl | h
        · exact absurd rfl hcc
        · exact h
      · exact List.mem_cons_of_mem _
    by_cases hcond : isSubstr c' text && !hasKey c' acc
    · rw [addChapters, if_pos hcond, ih, lookupPage_append]
      cases hl : lookupPage c acc with
      | some q => simp
      | none =>
        dsimp only
        by_cases hcc : c' = c
        · subst hcc
          have hsub : isSubstr c' text = true := band_left hcond
          simp [lookupPage, hsub]
        · have hsingle : lookupPage c [(c', p)] = none := by simp [lookupPage, hcc]
          rw [hsingle]
          by_cases hcs : c ∈ cs ∧ isSubstr c text = true
          · rw [if_pos hcs, if_pos ⟨(hmemI hcc).2 hcs.1, hcs.2⟩]
          · rw [if_neg hcs, if_neg (fun h => hcs ⟨(hmemI hcc).1 h.1, h.2⟩)]
    · rw [addChapters, if_neg hcond, ih]
      cases hl : lookupPage c acc with
      | some q => simp
      | none =>
        dsimp only
        by_cases hcc : c' = c
        · subst hcc
          have hk : hasKey c' acc = false := (lookupPage_none_iff c' acc).1 hl
          have hsub : isSubstr c' text = false := by
            by_cases hs : isSubstr c' text = true
            · exact absurd (by rw [hs, hk]; rfl) hcond
            · exact Bool.eq_false_iff.2 hs
          simp [hsub]
        · by_cases hcs : c ∈ cs ∧ isSubstr c text = true
          · rw [if_pos hcs, if_pos ⟨(hmemI hcc).2 hcs.1, hcs.2⟩]
          · rw [if_neg hcs, if_neg (fun h => hcs ⟨(hmemI hcc).1 h.1, h.2⟩)]

/-- A matching candidate that is not yet recorded gets appended by the inner
candidate loop. -/
theorem addChapters_mem (text : List Char) (p : Nat) :
    ∀ cs acc c, c ∈ cs → isSubstr c text = true → hasKey c acc = false →
      ∃ tl, addChapters text p cs acc = acc ++ tl ∧ (c, p) ∈ tl := by
  intro cs
  induction cs with
  | nil => intro acc c hc; cases hc
  | cons c' cs ih =>
    intro acc c hc hs hk
    by_cases hcc : c = c'
    · subst hcc
      have hcond : (isSubstr c text && !hasKey c acc) = true := by rw [hs, hk]; rfl
      rcases addChapters_tail text p cs (acc ++ [(c, p)]) with ⟨tl, heq, _⟩
      refine ⟨(c, p) :: tl, ?_, List.mem_cons_self _ _⟩
      rw [addChapters, if_pos hcond, heq, List.append_assoc]
      rfl
    · have hc' : c ∈ cs := by
        rcases List.mem_cons.1 hc with rfl | h
        · exact absurd rfl hcc
        · exact h
      by_cases hcond : isSubstr c' text && !hasKey c' acc
      · have hcc' : ¬ c' = c := fun h => hcc h.symm
        have hk' : hasKey c (acc ++ [(c', p)]) = false := by
          rw [hasKey_append, hk]
          simp [hasKey, hcc']
        rcases ih (acc ++ [(c', p)]) c hc' hs hk' with ⟨tl, heq, hm⟩
        refine ⟨(c', p) :: tl, ?_, List.mem_cons_of_mem _ hm⟩
        rw [addChapters, if_pos hcond, heq, List.append_assoc]
        rfl
      · rcases ih acc c hc' hs hk with ⟨tl, heq, hm⟩
        exact ⟨tl, by rw [addChapters, if_neg hcond, heq], hm⟩

/-- Two matching, unrecorded candidates get appended by the inner candidate
loop in their candidate-list order on the same page. -/
theorem addChapters_pair (text : List Char) (p : Nat) :
    ∀ cs acc c1 c2, c1 ∈ cs → c2 ∈ cs → c1 ≠ c2 →
      idxOf c1 cs < idxOf c2 cs →
      isSubstr c1 text = true → isSubstr c2 text = true →
      hasKey c1 acc = false → hasKey c2 acc = false →
      ∃ tl, addChapters text p cs acc = acc ++ tl ∧
        [(c1, p), (c2, p)].Sublist tl := by
  intro cs
  induction cs with
  | nil => intro acc c1 c2 hc1; cases hc1
  | cons d cs ih =>
    intro acc c1 c2 hc1 hc2 hne hidx hs1 hs2 hk1 hk2
    by_cases hd1 : d = c1
    · subst hd1
      have hcond : (isSubstr d text && !hasKey d acc) = true := by rw [hs1, hk1]; rfl
      have hc2' : c2 ∈ cs := by
        rcases List.mem_cons.1 hc2 with rfl | h
        · exact absurd rfl (Ne.symm hne)
        · exact h
      have hk2' : hasKey c2 (acc ++ [(d, p)]) = false := by
        rw [hasKey_append, hk2]
        simp [hasKey, hne]
      rcases addChapters_mem text p cs (acc ++ [(d, p)]) c2 hc2' hs2 hk2'
        with ⟨tl, heq, hm⟩
      refine ⟨(d, p) :: tl, ?_, ?_⟩
      · rw [addChapters, if_pos hcond, heq, List.append_assoc]
        rfl
      · exact List.Sublist.cons₂ _ (List.singleton_sublist.2 hm)
    · by_cases hd2 : d = c2
      · subst hd2
        exfalso
        have h1 : idxOf c1 (d :: cs) = idxOf c1 cs + 1 := by
          rw [idxOf, if_neg hd1]
        have h2 : idxOf d (d :: cs) = 0 := by
          rw [idxOf, if_pos rfl]
        omega
      · have hc1' : c1 ∈ cs := by
          rcases List.mem_cons.1 hc1 with rfl | h
          · exact absurd rfl hd1
          · exact h
        have hc2' : c2 ∈ cs := by
          rcases List.mem_cons.1 hc2 with rfl | h
          · exact absurd rfl hd2
          · exact h
        have hidx' : idxOf c1 cs < idxOf c2 cs := by
          have h1 : idxOf c1 (d :: cs) = idxOf c1 cs + 1 := by rw [idxOf, if_neg hd1]
          have h2 : idxOf c2 (d :: cs) = idxOf c2 cs + 1 := by rw [idxOf, if_neg hd2]
          omega
        by_cases hcond : isSubstr d text && !hasKey d acc
        · have hk1' : hasKey c1 (acc ++ [(d, p)]) = false := by
            rw [hasKey_append, hk1]
            simp [hasKey, hd1]
          have hk2' : hasKey c2 (acc ++ [(d, p)]) = false := by
            rw [hasKey_append, hk2]
            simp [hasKey, hd2]
          rcases ih (acc ++ [(d, p)]) c1 c2 hc1' hc2' hne hidx' hs1 hs2 hk1' hk2'
            with ⟨tl, heq, hsub⟩
          refine ⟨(d, p) :: tl, ?_, hsub.cons _⟩
          rw [addChapters, if_pos hcond, heq, List.append_assoc]
          rfl
        · rcases ih acc c1 c2 hc1' hc2' hne hidx' hs1 hs2 hk1 hk2
            with ⟨tl, heq, hsub⟩
          exact ⟨tl, by rw [addChapters, if_neg hcond, heq], hsub⟩

/-- `chapter_pages` is the window fold over the full scan range. -/
theorem chapter_pages_eq_scanFoldAux (pages chapters : List (List Char)) (cs : Nat) :
    chapter_pages pages chapters cs =
      scanFoldAux pages chapters (cs - 1) (pages.length - (cs - 1)) [] :=
  rfl

/-- Unfolding one page of the body-scan fold. -/
theorem scanFoldAux_succ (pages chapters : List (List Char)) (a n : Nat)
    (acc : List (List Char × Nat)) :
    scanFoldAux pages chapters a (n + 1) acc =
      scanFoldAux pages chapters (a + 1) n
        (addChapters (pageText pages a) a chapters acc) := by
  rw [scanFoldAux, List.range'_succ]
  rfl

/-- The body-scan fold only appends to the dict. -/
theorem scanFoldAux_prefix (pages chapters : List (List Char)) :
    ∀ n a acc, ∃ tl, scanFoldAux pages chapters a n acc = acc ++ tl := by
  intro n
  induction n with
  | zero => intro a acc; exact ⟨[], by simp [scanFoldAux]⟩
  | succ n ih =>
    intro a acc
    rw [scanFoldAux_succ]
    rcases addChapters_tail (pageText pages a) a chapters acc with ⟨tl1, heq1, _⟩
    rcases ih (a + 1) (addChapters (pageText pages a) a chapters acc) with ⟨tl2, heq2⟩
    exact ⟨tl1 ++ tl2, by rw [heq2, heq1, List.append_assoc]⟩

/-- Lookup after a window of the body scan: an already-recorded candidate
keeps its page; an unrecorded candidate is recorded at the first page of the
window whose text contains it, if any. -/
theorem scanFoldAux_lookup (pages chapters : List (List Char)) :
    ∀ n a acc c, lookupPage c (scanFoldAux pages chapters a n acc) =
      match lookupPage c acc with
      | some q => some q
      | none =>
        if c ∈ chapters then
          (List.range' a n).find? (fun p => isSubstr c (pageText pages p))
        else none := by
  intro n
  induction n with
  | zero =>
    intro a acc c
    cases hl : lookupPage c acc <;> simp [scanFoldAux, hl]
  | succ n ih =>
    intro a acc c
    rw [scanFoldAux_succ, ih, addChapters_lookup, List.range'_succ]
    cases hl : lookupPage c acc with
    | some q => simp
    | none =>
      dsimp only
      by_cases hc : c ∈ chapters
      · by_cases hs : isSubstr c (pageText pages a) = true
        · rw [if_pos ⟨hc, hs⟩]
          dsimp only
          rw [if_pos hc]
          exact (@List.find?_cons_of_pos _ (fun p => isSubstr c (pageText pages p)) a
            (List.range' (a + 1) n) hs).symm
        · rw [if_neg (fun h => hs h.2)]
          dsimp only
          rw [if_pos hc, if_pos hc]
          exact (@List.find?_cons_of_neg _ (fun p => isSubstr c (pageText pages p)) a
            (List.range' (a + 1) n) hs).symm
      · rw [if_neg (fun h => hc h.1)]
        dsimp only
        rw [if_neg hc, if_neg hc]

/-- Every page recorded by a window of the body scan satisfies any property
holding on the incoming dict and on the window. -/
theorem scanFoldAux_values (pages chapters : List (List Char)) (P : Nat → Prop) :
    ∀ n a acc, (∀ e ∈ acc, P e.2) → (∀ p, a ≤ p → p < a + n → P p) →
      ∀ e ∈ scanFoldAux pages chapters a n acc, P e.2 := by
  intro n
  induction n with
  | zero =>
    intro a acc hacc _ e he
    exact hacc e (by simpa [scanFoldAux] using he)
  | succ n ih =>
    intro a acc hacc hrange e he
    rw [scanFoldAux_succ] at he
    refine ih (a + 1) _ ?_ (fun p hp1 hp2 => hrange p (by omega) (by omega)) e he
    intro f hf
    rcases addChapters_tail (pageText pages a) a chapters acc with ⟨tl, heq, hall⟩
    rw [heq] at hf
    rcases List.mem_append.1 hf with h | h
    · exact hacc f h
    · exact ((hall f h).1).symm ▸ hrange a (le_refl a) (by omega)

/-- The inner candidate loop preserves key distinctness. -/
theorem addChapters_nodup (text : List Char) (p : Nat) :
    ∀ cs acc, List.Pairwise (fun e e' : List Char × Nat => e.1 ≠ e'.1) acc →
      List.Pairwise (fun e e' : List Char × Nat => e.1 ≠ e'.1)
        (addChapters text p cs acc) := by
  intro cs
  induction cs with
  | nil => intro acc h; rw [addChapters]; exact h
  | cons c cs ih =>
    intro acc h
    by_cases hcond : isSubstr c text && !hasKey c acc
    · rw [addChapters, if_pos hcond]
      refine ih _ ?_
      rw [List.pairwise_append]
      refine ⟨h, by simp, ?_⟩
      intro e he f hf
      rcases List.mem_singleton.1 hf with rfl
      have hk : hasKey c acc = false := by
        have hb := band_right hcond
        simpa using hb
      intro hec
      have := (hasKey_iff c acc).2 ⟨e, he, hec⟩
      rw [hk] at this
      cases this
    · rw [addChapters, if_neg hcond]; exact ih _ h

/-- The body scan records every candidate at most once. -/
theorem scanFoldAux_nodup (pages chapters : List (List Char)) :
    ∀ n a acc, List.Pairwise (fun e e' : List Char × Nat => e.1 ≠ e'.1) acc →
      List.Pairwise (fun e e' : List Char × Nat => e.1 ≠ e'.1)
        (scanFoldAux pages chapters a n acc) := by
  intro n
  induction n with
  | zero => intro a acc h; simpa [scanFoldAux] using h
  | succ n ih =>
    intro a acc h
    rw [scanFoldAux_succ]
    exact ih (a + 1) _ (addChapters_nodup _ _ chapters acc h)

/-- In a dict with distinct keys, membership of a pair is the same as a
successful lookup. -/
theorem mem_iff_lookup :
    ∀ l : List (List Char × Nat),
      List.Pairwise (fun e e' : List Char × Nat => e.1 ≠ e'.1) l →
      ∀ c q, ((c, q) ∈ l ↔ lookupPage c l = some q) := by
  intro l
  induction l with
  | nil => intro _ c q; simp [lookupPage]
  | cons e r ih =>
    intro h c q
    rcases List.pairwise_cons.1 h with ⟨hhead, htail⟩
    by_cases hec : e.1 = c
    · constructor
      · intro hm
        rcases List.mem_cons.1 hm with heq | hm
        · rw [← heq]
          simp [lookupPage]
        · exact absurd hec (hhead (c, q) hm)
      · intro hl
        rw [lookupPage, if_pos hec] at hl
        have he2 : e.2 = q := Option.some.inj hl
        have : e = (c, q) := by
          rcases e with ⟨e1, e2⟩
          simp only at hec he2
          rw [hec, he2]
        rw [← this]
        exact List.mem_cons_self _ _
    · rw [lookupPage, if_neg hec]
      constructor
      · intro hm
        rcases List.mem_cons.1 hm with heq | hm
        · exact absurd (congrArg Prod.fst heq.symm) hec
        · exact (ih htail c q).1 hm
      · intro hl
        exact List.mem_cons_of_mem _ ((ih htail c q).2 hl)

/-- Two distinct candidates whose first match in a window falls on the same
page end up in the dict with the earlier-listed candidate first. -/
theorem scanFoldAux_pair (pages chapters : List (List Char)) :
    ∀ n a acc c1 c2 p,
      c1 ∈ chapters → c2 ∈ chapters → c1 ≠ c2 →
      idxOf c1 chapters < idxOf c2 chapters →
      lookupPage c1 acc = none → lookupPage c2 acc = none →
      (List.range' a n).find? (fun q => isSubstr c1 (pageText pages q)) = some p →
      (List.range' a n).find? (fun q => isSubstr c2 (pageText pages q)) = some p →
      [(c1, p), (c2, p)].Sublist (scanFoldAux pages chapters a n acc) := by
  intro n
  induction n with
  | zero =>
    intro a acc c1 c2 p _ _ _ _ _ _ hf1 _
    cases hf1
  | succ n ih =>
    intro a acc c1 c2 p h1 h2 hne hidx hl1 hl2 hf1 hf2
    rw [List.range'_succ] at hf1 hf2
    rw [scanFoldAux_succ]
    by_cases hs1 : isSubstr c1 (pageText pages a) = true
    · by_cases hs2 : isSubstr c2 (pageText pages a) = true
      · rw [@List.find?_cons_of_pos _ (fun q => isSubstr c1 (pageText pages q)) a
          (List.range' (a + 1) n) hs1] at hf1
        have hp : p = a := (Option.some.inj hf1).symm
        subst hp
        rcases addChapters_pair (pageText pages p) p chapters acc c1 c2 h1 h2 hne hidx hs1 hs2
          ((lookupPage_none_iff _ _).1 hl1) ((lookupPage_none_iff _ _).1 hl2)
          with ⟨tl, heq, hsub⟩
        rcases scanFoldAux_prefix pages chapters n (p + 1)
          (addChapters (pageText pages p) p chapters acc) with ⟨tl2, heq2⟩
        rw [heq2, heq, List.append_assoc]
        exact (hsub.trans (List.sublist_append_left tl tl2)).trans
          (List.sublist_append_right acc _)
      · rw [@List.find?_cons_of_pos _ (fun q => isSubstr c1 (pageText pages q)) a
          (List.range' (a + 1) n) hs1] at hf1
        rw [@List.find?_cons_of_neg _ (fun q => isSubstr c2 (pageText pages q)) a
          (List.range' (a + 1) n) hs2] at hf2
        have hp : a = p := Option.some.inj hf1
        have hmem := List.mem_of_find?_eq_some hf2
        have hge := (List.mem_range'_1.1 hmem).1
        omega
    · by_cases hs2 : isSubstr c2 (pageText pages a) = true
      · rw [@List.find?_cons_of_pos _ (fun q => isSubstr c2 (pageText pages q)) a
          (List.range' (a + 1) n) hs2] at hf2
        rw [@List.find?_cons_of_neg _ (fun q => isSubstr c1 (pageText pages q)) a
          (List.range' (a + 1) n) hs1] at hf1
        have hp : a = p := Option.some.inj hf2
        have hmem := List.mem_of_find?_eq_some hf1
        have hge := (List.mem_range'_1.1 hmem).1
        omega
      · rw [@List.find?_cons_of_neg _ (fun q => isSubstr c1 (pageText pages q)) a
          (List.range' (a + 1) n) hs1] at hf1
        rw [@List.find?_cons_of_neg _ (fun q => isSubstr c2 (pageText pages q)) a
          (List.range' (a + 1) n) hs2] at hf2
        have hnl1 : lookupPage c1 (addChapters (pageText pages a) a chapters acc) = none := by
          rw [addChapters_lookup, hl1]
          dsimp only
          rw [if_neg (fun h => hs1 h.2)]
        have hnl2 : lookupPage c2 (addChapters (pageText pages a) a chapters acc) = none := by
          rw [addChapters_lookup, hl2]
          dsimp only
          rw [if_neg (fun h => hs2 h.2)]
        exact ih (a + 1) _ c1 c2 p h1 h2 hne hidx hnl1 hnl2 hf1 hf2

/-! ### The stable sort by page -/

/-- Inserting an element preserves the rest of the list as a sublist. -/
theorem sublist_insPage : ∀ (m : List (List Char × Nat)) e, m.Sublist (insPage e m) := by
  intro m e
  induction m with
  | nil => simp [insPage]
  | cons f fs ih =>
    rw [insPage]
    by_cases h : e.2 ≤ f.2
    · rw [if_pos h]
      exact (List.Sublist.refl (f :: fs)).cons e
    · rw [if_neg h]
      exact ih.cons₂ f

/-- The inserted element is a member of the result. -/
theorem mem_insPage_self : ∀ (m : List (List Char × Nat)) e, e ∈ insPage e m := by
  intro m e
  induction m with
  | nil => simp [insPage]
  | cons f fs ih =>
    rw [insPage]
    by_cases h : e.2 ≤ f.2
    · rw [if_pos h]; exact List.mem_cons_self _ _
    · rw [if_neg h]; exact List.mem_cons_of_mem _ ih

/-- Insertion produces a permutation of the cons. -/
theorem insPage_perm : ∀ (m : List (List Char × Nat)) e, (insPage e m).Perm (e :: m) := by
  intro m e
  induction m with
  | nil => simp [insPage]
  | cons f fs ih =>
    rw [insPage]
    by_cases h : e.2 ≤ f.2
    · rw [if_pos h]
    · rw [if_neg h]
      exact (ih.cons f).trans (List.Perm.swap e f fs)

/-- The stable sort permutes its input. -/
theorem sortPairs_perm : ∀ l : List (List Char × Nat), (sortPairs l).Perm l := by
  intro l
  induction l with
  | nil => simp [sortPairs]
  | cons e l ih =>
    rw [sortPairs]
    exact (insPage_perm _ e).trans (ih.cons e)

/-- When the inserted element precedes (by key) an element of the target, the
two appear in insertion order in the result. -/
theorem insPage_pair :
    ∀ (m : List (List Char × Nat)) x y, y ∈ m → x.2 ≤ y.2 →
      [x, y].Sublist (insPage x m) := by
  intro m
  induction m with
  | nil => intro x y hy; cases hy
  | cons f fs ih =>
    intro x y hy hxy
    rw [insPage]
    by_cases h : x.2 ≤ f.2
    · rw [if_pos h]
      exact List.Sublist.cons₂ x (List.singleton_sublist.2 hy)
    · rw [if_neg h]
      rcases List.mem_cons.1 hy with rfl | hy'
      · omega
      · exact (ih x y hy' hxy).cons f

/-- Stability of the sort: a pair of entries in key order keeps its relative
order through `sortPairs`. -/
theorem sortPairs_pair :
    ∀ (l : List (List Char × Nat)) x y, x.2 ≤ y.2 →
      [x, y].Sublist l → [x, y].Sublist (sortPairs l) := by
  intro l
  induction l with
  | nil => intro x y _ hsub; cases hsub
  | cons e l ih =>
    intro x y hxy hsub
    rw [sortPairs]
    cases hsub with
    | cons _ h =>
      exact (ih x y hxy h).trans (sublist_insPage _ e)
    | cons₂ _ h =>
      have hym : y ∈ l := List.singleton_sublist.1 h
      have hys : y ∈ sortPairs l := (sortPairs_perm l).mem_iff.2 hym
      exact insPage_pair _ _ y hys hxy

/-- The sort orders the dict by page, non-decreasingly. -/
theorem insPage_chain_aux :
    ∀ (m : List (List Char × Nat)) x e,
      List.Chain' (fun a b => a.2 ≤ b.2) (x :: m) → x.2 ≤ e.2 →
      List.Chain' (fun a b => a.2 ≤ b.2) (x :: insPage e m) := by
  intro m
  induction m with
  | nil =>
    intro x e _ hxe
    simp [insPage, hxe]
  | cons g gs ih =>
    intro x e hch hxe
    rcases List.chain'_cons.1 hch with ⟨hxg, hgs⟩
    rw [insPage]
    by_cases h : e.2 ≤ g.2
    · rw [if_pos h]
      exact List.chain'_cons.2 ⟨hxe, List.chain'_cons.2 ⟨h, hgs⟩⟩
    · rw [if_neg h]
      exact List.chain'_cons.2 ⟨hxg, ih g e hgs (by omega)⟩

/-- Insertion into a page-sorted list keeps it page-sorted. -/
theorem insPage_chain :
    ∀ (m : List (List Char × Nat)) e,
      List.Chain' (fun a b => a.2 ≤ b.2) m →
      List.Chain' (fun a b => a.2 ≤ b.2) (insPage e m) := by
  intro m e hch
  cases m with
  | nil => simp [insPage]
  | cons f fs =>
    rw [insPage]
    by_cases h : e.2 ≤ f.2
    · rw [if_pos h]
      exact List.chain'_cons.2 ⟨h, hch⟩
    · rw [if_neg h]
      exact insPage_chain_aux fs f e hch (by omega)

/-- The sorted dict is non-decreasing in page. -/
theorem sortPairs_chain :
    ∀ l : List (List Char × Nat),
      List.Chain' (fun a b => a.2 ≤ b.2) (sortPairs l) := by
  intro l
  induction l with
  | nil => simp [sortPairs]
  | cons e l ih =>
    rw [sortPairs]
    exact insPage_chain _ e ih

/-! ### Boundary construction -/

/-- The boundary titles are the sorted dict's titles, in order. -/
theorem mkBounds_map_fst (T : Nat) :
    ∀ l : List (List Char × Nat), (mkBounds T l).map (fun b => b.1) = l.map Prod.fst := by
  intro l
  induction l with
  | nil => rfl
  | cons e rest ih =>
    obtain ⟨c, s⟩ := e
    cases rest with
    | nil => rfl
    | cons e2 r =>
      obtain ⟨c2, s2⟩ := e2
      rw [mkBounds]
      simp only [List.map_cons] at ih ⊢
      rw [ih]

/-- The boundary start pages are the sorted dict's pages, in order. -/
theorem mkBounds_map_start (T : Nat) :
    ∀ l : List (List Char × Nat), (mkBounds T l).map (fun b => b.2.1) = l.map Prod.snd := by
  intro l
  induction l with
  | nil => rfl
  | cons e rest ih =>
    obtain ⟨c, s⟩ := e
    cases rest with
    | nil => rfl
    | cons e2 r =>
      obtain ⟨c2, s2⟩ := e2
      rw [mkBounds]
      simp only [List.map_cons] at ih ⊢
      rw [ih]

/-- Each boundary comes from a dict entry: its title/start pair is in the
sorted dict. -/
theorem mkBounds_mem (T : Nat) :
    ∀ (l : List (List Char × Nat)) b, b ∈ mkBounds T l → (b.1, b.2.1) ∈ l := by
  intro l
  induction l with
  | nil => intro b hb; cases hb
  | cons e rest ih =>
    intro b hb
    obtain ⟨c, s⟩ := e
    cases rest with
    | nil =>
      rw [mkBounds] at hb
      rcases List.mem_singleton.1 hb with rfl
      exact List.mem_cons_self _ _
    | cons e2 r =>
      obtain ⟨c2, s2⟩ := e2
      rw [mkBounds] at hb
      rcases List.mem_cons.1 hb with rfl | hb'
      · exact List.mem_cons_self _ _
      · exact List.mem_cons_of_mem _ (ih b hb')

/-- The head boundary carries the head dict entry's title and start page. -/
theorem mkBounds_head (T : Nat) :
    ∀ (l : List (List Char × Nat)) c s b,
      (mkBounds T ((c, s) :: l)).head? = some b → b.1 = c ∧ b.2.1 = s := by
  intro l c s b h
  cases l with
  | nil =>
    rw [mkBounds] at h
    simp only [List.head?_cons, Option.some.injEq] at h
    rw [← h]
    exact ⟨rfl, rfl⟩
  | cons e2 r =>
    obtain ⟨c2, s2⟩ := e2
    rw [mkBounds] at h
    simp only [List.head?_cons, Option.some.injEq] at h
    rw [← h]
    exact ⟨rfl, rfl⟩

/-- Adjacent boundaries abut: each exclusive end page is the next start. -/
theorem mkBounds_chain (T : Nat) :
    ∀ l : List (List Char × Nat),
      List.Chain' (fun b b' => b.2.2 = b'.2.1) (mkBounds T l) := by
  intro l
  induction l with
  | nil => simp [mkBounds]
  | cons e rest ih =>
    obtain ⟨c, s⟩ := e
    cases rest with
    | nil => simp [mkBounds]
    | cons e2 r =>
      obtain ⟨c2, s2⟩ := e2
      rw [mkBounds]
      refine List.chain'_cons'.2 ⟨?_, ih⟩
      intro b hb
      exact ((mkBounds_head T r c2 s2 b hb).2).symm

/-- Boundary starts inherit the sorted dict's page order. -/
theorem mkBounds_chain_start (T : Nat) :
    ∀ l : List (List Char × Nat),
      List.Chain' (fun e e' : List Char × Nat => e.2 ≤ e'.2) l →
      List.Chain' (fun b b' => b.2.1 ≤ b'.2.1) (mkBounds T l) := by
  intro l
  induction l with
  | nil => intro _; simp [mkBounds]
  | cons e rest ih =>
    intro h
    obtain ⟨c, s⟩ := e
    cases rest with
    | nil => simp [mkBounds]
    | cons e2 r =>
      obtain ⟨c2, s2⟩ := e2
      rcases List.chain'_cons.1 h with ⟨hss, ht⟩
      rw [mkBounds]
      refine List.chain'_cons'.2 ⟨?_, ih ht⟩
      intro b hb
      rw [← (mkBounds_head T r c2 s2 b hb).2] at hss
      exact hss

/-- The last boundary's exclusive end page is the page count. -/
theorem mkBounds_getLast (T : Nat) :
    ∀ (l : List (List Char × Nat)) bl, (mkBounds T l).getLast? = some bl → bl.2.2 = T := by
  intro l
  induction l with
  | nil => intro bl h; cases h
  | cons e rest ih =>
    intro bl h
    obtain ⟨c, s⟩ := e
    cases rest with
    | nil =>
      rw [mkBounds] at h
      simp only [List.getLast?_singleton, Option.some.injEq] at h
      rw [← h]
    | cons e2 r =>
      obtain ⟨c2, s2⟩ := e2
      rw [mkBounds] at h
      have hshape : ∃ hd tl, mkBounds T ((c2, s2) :: r) = hd :: tl := by
        cases r with
        | nil => exact ⟨_, _, by rw [mkBounds]⟩
        | cons e3 r3 =>
          obtain ⟨c3, s3⟩ := e3
          exact ⟨_, _, by rw [mkBounds]⟩
      rcases hshape with ⟨hd, tl, heq⟩
      rw [heq, List.getLast?_cons_cons] at h
      exact ih bl (by rw [heq]; exact h)

/-- A page-sorted dict with pages at most `T` yields boundaries whose start
does not exceed their exclusive end. -/
theorem mkBounds_start_le (T : Nat) :
    ∀ l : List (List Char × Nat),
      List.Chain' (fun e e' : List Char × Nat => e.2 ≤ e'.2) l →
      (∀ e ∈ l, e.2 ≤ T) →
      ∀ b ∈ mkBounds T l, b.2.1 ≤ b.2.2 := by
  intro l
  induction l with
  | nil => intro _ _ b hb; cases hb
  | cons e rest ih =>
    intro hch hT b hb
    obtain ⟨c, s⟩ := e
    cases rest with
    | nil =>
      rw [mkBounds] at hb
      rcases List.mem_singleton.1 hb with rfl
      exact hT (c, s) (List.mem_cons_self _ _)
    | cons e2 r =>
      obtain ⟨c2, s2⟩ := e2
      rw [mkBounds] at hb
      rcases List.mem_cons.1 hb with rfl | hb'
      · exact (List.chain'_cons.1 hch).1
      · exact ih (List.chain'_cons.1 hch).2
          (fun f hf => hT f (List.mem_cons_of_mem _ hf)) b hb'

/-- Head-to-all monotonicity from a non-decreasing chain. -/
theorem chain_le_head :
    ∀ (m : List (List Char × Nat)) x,
      List.Chain' (fun e e' : List Char × Nat => e.2 ≤ e'.2) (x :: m) →
      ∀ e ∈ x :: m, x.2 ≤ e.2 := by
  intro m
  induction m with
  | nil =>
    intro x _ e he
    rcases List.mem_cons.1 he with rfl | h
    · exact le_refl _
    · cases h
  | cons y m' ih =>
    intro x hch e he
    rcases List.chain'_cons.1 hch with ⟨hxy, ht⟩
    rcases List.mem_cons.1 he with rfl | he'
    · exact le_refl _
    · exact le_trans hxy (ih y ht e he')

/-- Boundaries from a page-sorted dict are pairwise disjoint: every earlier
boundary ends (exclusively) no later than every later one starts. -/
theorem mkBounds_pairwise (T : Nat) :
    ∀ l : List (List Char × Nat),
      List.Chain' (fun e e' : List Char × Nat => e.2 ≤ e'.2) l →
      List.Pairwise (fun b b' => b.2.2 ≤ b'.2.1) (mkBounds T l) := by
  intro l
  induction l with
  | nil => intro _; simp [mkBounds]
  | cons e rest ih =>
    intro hch
    obtain ⟨c, s⟩ := e
    cases rest with
    | nil => simp [mkBounds]
    | cons e2 r =>
      obtain ⟨c2, s2⟩ := e2
      rcases List.chain'_cons.1 hch with ⟨hss, ht⟩
      rw [mkBounds]
      refine List.pairwise_cons.2 ⟨?_, ih ht⟩
      intro b hb
      have hstart : (b.1, b.2.1) ∈ (c2, s2) :: r := mkBounds_mem T _ b hb
      exact chain_le_head r (c2, s2) ht (b.1, b.2.1) hstart

/-- Coverage: every page from the first boundary's start up to (but not
including) the page count lies in some boundary. -/
theorem mkBounds_cover (T : Nat) :
    ∀ l : List (List Char × Nat),
      List.Chain' (fun e e' : List Char × Nat => e.2 ≤ e'.2) l →
      ∀ hd, l.head? = some hd → ∀ q, hd.2 ≤ q → q < T →
        ∃ b ∈ mkBounds T l, b.2.1 ≤ q ∧ q < b.2.2 := by
  intro l
  induction l with
  | nil => intro _ hd h; cases h
  | cons e rest ih =>
    intro hch hd hhd q hq1 hq2
    obtain ⟨c, s⟩ := e
    simp only [List.head?_cons, Option.some.injEq] at hhd
    subst hhd
    cases rest with
    | nil =>
      refine ⟨(c, s, T), ?_, hq1, hq2⟩
      rw [mkBounds]
      exact List.mem_singleton.2 rfl
    | cons e2 r =>
      obtain ⟨c2, s2⟩ := e2
      by_cases hlt : q < s2
      · refine ⟨(c, s, s2), ?_, hq1, hlt⟩
        rw [mkBounds]
        exact List.mem_cons_self _ _
      · rcases ih (List.chain'_cons.1 hch).2 (c2, s2) rfl q (by omega) hq2
          with ⟨b, hb, hb1, hb2⟩
        refine ⟨b, ?_, hb1, hb2⟩
        rw [mkBounds]
        exact List.mem_cons_of_mem _ hb

/-- A two-element sublist of a duplicate-free list has its first element at a
strictly earlier first-occurrence index. -/
theorem idxOf_lt_of_sublist :
    ∀ (l : List (List Char)) c1 c2, [c1, c2].Sublist l → c1 ≠ c2 →
      List.Pairwise (fun a b => a ≠ b) l → idxOf c1 l < idxOf c2 l := by
  intro l
  induction l with
  | nil => intro c1 c2 hsub; cases hsub
  | cons d l ih =>
    intro c1 c2 hsub hne hnd
    rcases List.pairwise_cons.1 hnd with ⟨hhead, htail⟩
    cases hsub with
    | cons₂ _ h =>
      have hc2 : c2 ∈ l := List.singleton_sublist.1 h
      have hd2 : ¬ d = c2 := fun hdc => (hdc ▸ hhead c2 hc2) rfl
      rw [idxOf, if_pos rfl, idxOf, if_neg hd2]
      omega
    | cons _ h =>
      have hc1 : c1 ∈ l := h.subset (List.mem_cons_self _ _)
      have hc2 : c2 ∈ l := h.subset (by simp)
      have hd1 : ¬ d = c1 := fun hdc => (hdc ▸ hhead c1 hc1) rfl
      have hd2 : ¬ d = c2 := fun hdc => (hdc ▸ hhead c2 hc2) rfl
      rw [idxOf, if_neg hd1, idxOf, if_neg hd2]
      have := ih c1 c2 h hne htail
      omega

/-- After the scan the dict maps a candidate to its first matching body page. -/
theorem chapter_pages_lookup (pages chapters : List (List Char)) (cs : Nat) (c : List Char) :
    lookupPage c (chapter_pages pages chapters cs) =
      if c ∈ chapters then firstMatchPage pages cs c else none := by
  rw [chapter_pages_eq_scanFoldAux, scanFoldAux_lookup]
  rfl

/-- The scanned dict has pairwise distinct candidate keys. -/
theorem chapter_pages_nodup (pages chapters : List (List Char)) (cs : Nat) :
    List.Pairwise (fun e e' : List Char × Nat => e.1 ≠ e'.1)
      (chapter_pages pages chapters cs) := by
  rw [chapter_pages_eq_scanFoldAux]
  exact scanFoldAux_nodup pages chapters _ _ [] (by simp)

/-- Every recorded page is a page of the document. -/
theorem chapter_pages_values (pages chapters : List (List Char)) (cs : Nat) :
    ∀ e ∈ chapter_pages pages chapters cs, e.2 < pages.length := by
  rw [chapter_pages_eq_scanFoldAux]
  refine scanFoldAux_values pages chapters (fun q => q < pages.length) _ _ [] (by simp) ?_
  intro p h1 h2
  omega

/-- The sorted dict also has pairwise distinct candidate keys. -/
theorem sorted_chapters_nodup (pages chapters : List (List Char)) (cs : Nat) :
    List.Pairwise (fun e e' : List Char × Nat => e.1 ≠ e'.1)
      (sorted_chapters pages chapters cs) :=
  (List.Perm.pairwise_iff (fun h => h.symm)
    (sortPairs_perm (chapter_pages pages chapters cs))).2
    (chapter_pages_nodup pages chapters cs)

/-- Claim C4 (counterexample): with the scan starting at page 0 of a 3-page
document whose only candidate first matches on page 1, the resolved
boundaries are `[("A", 1, 3)]` (start page 1, exclusive end 3): page 0 of the
document is covered by no boundary, so the boundaries do not jointly cover
the page range from 0 to the final page. -/
theorem C4_counterexample :
    chapter_bounds [[], "A".data, []] ["A".data] 1 = [("A".data, 1, 3)] ∧
    (chapter_bounds [[], "A".data, []] ["A".data] 1).all
      (fun b => !(decide (b.2.1 ≤ 0) && decide (0 < b.2.2))) = true :=
  ⟨by decide, by decide⟩

/-- Claim C4 (amended): the resolved boundaries are non-overlapping (each
boundary's exclusive end page is at most every later boundary's start page),
non-decreasing in start page, and gap-free from the **first located
boundary's start page** (not from page 0) up to the document's final page;
the last boundary's exclusive end page equals the page count, i.e. its
inclusive end page is the document's final page index. -/
theorem C4_amended_boundary_coverage (pages chapters : List (List Char)) (cs : Nat) :
    List.Chain' (fun b b' => b.2.1 ≤ b'.2.1) (chapter_bounds pages chapters cs) ∧
    List.Pairwise (fun b b' => b.2.2 ≤ b'.2.1) (chapter_bounds pages chapters cs) ∧
    (∀ b ∈ chapter_bounds pages chapters cs, b.2.1 ≤ b.2.2 ∧ b.2.1 < pages.length) ∧
    (∀ hd, (chapter_bounds pages chapters cs).head? = some hd →
      ∀ q, hd.2.1 ≤ q → q < pages.length →
        ∃ b ∈ chapter_bounds pages chapters cs, b.2.1 ≤ q ∧ q < b.2.2) ∧
    (∀ bl, (chapter_bounds pages chapters cs).getLast? = some bl →
      bl.2.2 = pages.length) := by
  have hchain : List.Chain' (fun e e' : List Char × Nat => e.2 ≤ e'.2)
      (sorted_chapters pages chapters cs) := sortPairs_chain _
  have hvals : ∀ e ∈ sorted_chapters pages chapters cs, e.2 < pages.length := by
    intro e he
    exact chapter_pages_values pages chapters cs e
      ((sortPairs_perm (chapter_pages pages chapters cs)).mem_iff.1 he)
  refine ⟨mkBounds_chain_start _ _ hchain, mkBounds_pairwise _ _ hchain, ?_, ?_, ?_⟩
  · intro b hb
    refine ⟨mkBounds_start_le _ _ hchain (fun e he => le_of_lt (hvals e he)) b hb, ?_⟩
    exact hvals _ (mkBounds_mem _ _ b hb)
  · intro hd hhd q hq1 hq2
    cases hs : sorted_chapters pages chapters cs with
    | nil =>
      unfold chapter_bounds at hhd
      rw [hs] at hhd
      cases hhd
    | cons e rest =>
      obtain ⟨c, s⟩ := e
      have hhd' : hd.1 = c ∧ hd.2.1 = s := by
        refine mkBounds_head pages.length rest c s hd ?_
        unfold chapter_bounds at hhd
        rw [hs] at hhd
        exact hhd
      have hcov := mkBounds_cover pages.length ((c, s) :: rest) (hs ▸ hchain) (c, s) rfl q
        (by rw [← hhd'.2]; exact hq1) hq2
      unfold chapter_bounds
      rw [hs]
      exact hcov
  · intro bl hbl
    exact mkBounds_getLast pages.length _ bl hbl

/-- Witness for C4 at a two-candidate document where A matches page 0 and B
matches page 1. -/
theorem C4_witness :
    List.Chain' (fun b b' => b.2.1 ≤ b'.2.1)
      (chapter_bounds ["A".data, "B".data] ["A".data, "B".data] 1) ∧
    ("B".data, 1, 2).2.2 = (["A".data, "B".data] : List (List Char)).length := by
  have h := C4_amended_boundary_coverage ["A".data, "B".data] ["A".data, "B".data] 1
  exact ⟨h.1, h.2.2.2.2 ("B".data, 1, 2) (by decide)⟩

/-- Claim C5: in heuristic scan mode, a candidate's recorded start page is the
first body page (at or after the content-start page) whose text contains the
candidate as a literal substring; the resolved boundaries are sorted by start
page; each boundary's exclusive end page equals the next boundary's start
page (equivalently, its inclusive end page is the next start page minus one),
the last boundary's exclusive end page is the page count (its inclusive end
page is the document's final page); and candidates never located appear in no
boundary. -/
theorem C5_heuristic_boundaries (pages chapters : List (List Char)) (cs : Nat) :
    (∀ c ∈ chapters, lookupPage c (chapter_pages pages chapters cs) =
      firstMatchPage pages cs c) ∧
    (∀ b ∈ chapter_bounds pages chapters cs,
      b.1 ∈ chapters ∧ firstMatchPage pages cs b.1 = some b.2.1) ∧
    List.Chain' (fun b b' => b.2.1 ≤ b'.2.1) (chapter_bounds pages chapters cs) ∧
    List.Chain' (fun b b' => b.2.2 = b'.2.1) (chapter_bounds pages chapters cs) ∧
    (∀ bl, (chapter_bounds pages chapters cs).getLast? = some bl →
      bl.2.2 = pages.length) ∧
    (∀ c, firstMatchPage pages cs c = none →
      ∀ b ∈ chapter_bounds pages chapters cs, b.1 ≠ c) := by
  have hbound : ∀ b ∈ chapter_bounds pages chapters cs,
      b.1 ∈ chapters ∧ firstMatchPage pages cs b.1 = some b.2.1 := by
    intro b hb
    have hmem : (b.1, b.2.1) ∈ chapter_pages pages chapters cs :=
      (sortPairs_perm (chapter_pages pages chapters cs)).mem_iff.1 (mkBounds_mem _ _ b hb)
    have hlk : lookupPage b.1 (chapter_pages pages chapters cs) = some b.2.1 :=
      (mem_iff_lookup _ (chapter_pages_nodup pages chapters cs) b.1 b.2.1).1 hmem
    rw [chapter_pages_lookup] at hlk
    by_cases hc : b.1 ∈ chapters
    · rw [if_pos hc] at hlk
      exact ⟨hc, hlk⟩
    · rw [if_neg hc] at hlk
      cases hlk
  refine ⟨?_, hbound, mkBounds_chain_start _ _ (sortPairs_chain _), mkBounds_chain _ _,
    fun bl hbl => mkBounds_getLast pages.length _ bl hbl, ?_⟩
  · intro c hc
    rw [chapter_pages_lookup, if_pos hc]
  · intro c hfm b hb hbc
    have h2 := (hbound b hb).2
    rw [hbc, hfm] at h2
    cases h2

/-- Witness for C5 at the demo document: `Intro` resolves to page 0,
`Chapter One` to pages 10–11 (exclusive end 12 = page count), and the scan
lookup agrees with the first-match characterisation. -/
theorem C5_witness :
    lookupPage "Intro".data (chapter_pages demoPages demoChapters 1)
      = firstMatchPage demoPages 1 "Intro".data ∧
    firstMatchPage demoPages 1 "Intro".data = some 0 ∧
    ("Chapter One".data, (10 : Nat), (12 : Nat)).1 ∈ demoChapters ∧
    firstMatchPage demoPages 1 ("Chapter One".data, (10 : Nat), (12 : Nat)).1
      = some ("Chapter One".data, (10 : Nat), (12 : Nat)).2.1 ∧
    ("Chapter One".data, (10 : Nat), (12 : Nat)).2.2 = demoPages.length := by
  have h := C5_heuristic_boundaries demoPages demoChapters 1
  refine ⟨h.1 "Intro".data (by decide), by decide, ?_, ?_, ?_⟩
  · exact (h.2.1 ("Chapter One".data, (10 : Nat), (12 : Nat)) (by decide)).1
  · exact (h.2.1 ("Chapter One".data, (10 : Nat), (12 : Nat)) (by decide)).2
  · exact h.2.2.2.2.1 ("Chapter One".data, (10 : Nat), (12 : Nat)) (by decide)

/-- Claim C6: when two distinct candidates first match on the same body page,
their order in the resolved boundary sequence follows their order in the
front-matter candidate list — the earlier-listed candidate's boundary comes
first. -/
theorem C6_same_page_tiebreak (pages chapters : List (List Char)) (cs : Nat)
    (c1 c2 : List Char) (p : Nat)
    (h1 : c1 ∈ chapters) (h2 : c2 ∈ chapters) (hne : c1 ≠ c2)
    (hidx : idxOf c1 chapters < idxOf c2 chapters)
    (hf1 : firstMatchPage pages cs c1 = some p)
    (hf2 : firstMatchPage pages cs c2 = some p) :
    idxOf c1 ((chapter_bounds pages chapters cs).map (fun b => b.1))
      < idxOf c2 ((chapter_bounds pages chapters cs).map (fun b => b.1)) := by
  have hpair : [(c1, p), (c2, p)].Sublist (chapter_pages pages chapters cs) := by
    rw [chapter_pages_eq_scanFoldAux]
    exact scanFoldAux_pair pages chapters _ _ [] c1 c2 p h1 h2 hne hidx rfl rfl hf1 hf2
  have hsorted : [(c1, p), (c2, p)].Sublist (sorted_chapters pages chapters cs) :=
    sortPairs_pair _ _ _ (le_refl p) hpair
  have hmap : [c1, c2].Sublist ((sorted_chapters pages chapters cs).map Prod.fst) := by
    have hm := hsorted.map Prod.fst
    simpa using hm
  have hnd : List.Pairwise (fun a b : List Char => a ≠ b)
      ((sorted_chapters pages chapters cs).map Prod.fst) :=
    List.pairwise_map.2 (sorted_chapters_nodup pages chapters cs)
  rw [show (chapter_bounds pages chapters cs).map (fun b => b.1)
      = (sorted_chapters pages chapters cs).map Prod.fst from mkBounds_map_fst _ _]
  exact idxOf_lt_of_sublist _ c1 c2 hmap hne hnd

/-- Witness for C6: `Beta` and `Alpha` both first match on page 0; `Beta` is
listed first among the candidates and its boundary indeed comes first. -/
theorem C6_witness :
    idxOf "Beta".data
        ((chapter_bounds ["Alpha Beta".data] ["Beta".data, "Alpha".data] 1).map
          (fun b => b.1))
      < idxOf "Alpha".data
        ((chapter_bounds ["Alpha Beta".data] ["Beta".data, "Alpha".data] 1).map
          (fun b => b.1)) :=
  C6_same_page_tiebreak ["Alpha Beta".data] ["Beta".data, "Alpha".data] 1
    "Beta".data "Alpha".data 0 (by decide) (by decide) (by decide) (by decide)
    (by decide) (by decide)

end PdfAudio
